import Mathlib

/-!
# Verification of the soulstruct merged-mesh engine

Shallow embedding of `soulstruct/base/models/flver/mesh_tools.py` — the
merged-mesh vertex reduction and resplitting engine (`MergedMesh.from_flver`,
`MergedMesh.merge_vertices`, `MergedMesh.split_mesh`,
`MergedMesh.subsplit_faces`, `MergedMesh.make_bone_indices_local`,
`SplitSubmeshDef.get_validated_uv_layer_names`).

Modelling conventions:
* numpy float fields are modelled as exact rationals (`ℚ`); the engine never
  relies on rounding, only on exact byte identity of raw keys and on a single
  dot-product threshold comparison, so rationals are a faithful carrier.
  NaN values are not representable in `ℚ`, so the NaN-submesh-filtering branch
  of `from_flver` is vacuous in this embedding.
* numpy structured rows become Lean structures; the per-loop attribute columns
  that the algorithms never inspect (normal_w, tangents, bitangent, colors,
  uvs) ride along as a single opaque `extra : List ℚ` column.  The UV *naming*
  machinery, which `split_mesh` validates up front, is modelled separately via
  the list of global UV layer names.
* `np.empty` produces uninitialized memory; the corresponding arrays are
  modelled by an explicit arbitrary initial list supplied by the caller.
* Python dicts used purely as key → value lookup tables become association
  lists; insertion order is irrelevant for lookups.
-/

namespace Soulstruct

abbrev Vec3 := ℚ × ℚ × ℚ
abbrev Vec4 := ℚ × ℚ × ℚ × ℚ
abbrev IVec4 := ℤ × ℤ × ℤ × ℤ

/-- `np.dot` on 3-vectors. -/
def dot3 (a b : Vec3) : ℚ :=
  a.1 * b.1 + a.2.1 * b.2.1 + a.2.2 * b.2.2

/-- One row of the consolidated `all_vertices` structured array: the fields
`position`, `bone_weights`, `bone_indices`.  `triangle_vert.tobytes()` hashes
exactly this data, so this structure doubles as the "raw key". -/
structure VertexRow where
  position : Vec3
  bone_weights : Vec4
  bone_indices : IVec4
deriving DecidableEq, Repr, Inhabited

/-- One full FLVER-style loop row: vertex data plus per-loop data.  `extra`
stands for the remaining per-loop columns (normal_w, tangents, bitangent,
colors, uvs) which every algorithm copies or compares wholesale but never
inspects. -/
structure LoopRow where
  vertex : VertexRow
  normal : Vec3
  extra : List ℚ
deriving DecidableEq, Repr, Inhabited

/-- One vertex row of a native submesh's first vertex array.  Fields that a
given submesh's layout may omit are `Option`s; `build_stacked_loops` fills the
documented defaults. -/
structure SubmeshVertex where
  position : Option Vec3
  bone_weights : Option Vec4
  bone_indices : Option IVec4
  normal : Option Vec3
  extra : List ℚ
deriving DecidableEq, Repr, Inhabited

/-- Modelled from the spec: `FaceSet` (class in `submesh.py`, not under
`src/`).  A face set is its triangle list; per the spec faces are "always
triangulated before use" and `triangulate(allow_primitive_restarts=False)`
returns exactly this list, so the face set is modelled post-triangulation. -/
structure FaceSet where
  triangles : List (ℕ × ℕ × ℕ)
deriving DecidableEq, Repr, Inhabited

/-- Modelled from the spec: `Submesh` (class in `submesh.py`, not under
`src/`): one native mesh chunk with its first vertex array, its face sets and
an optional local→global bone-index table (`submesh.bone_indices`). -/
structure Submesh where
  vertices : List SubmeshVertex
  face_sets : List FaceSet
  bone_indices : Option (List ℤ)
deriving DecidableEq, Repr, Inhabited

/-- Modelled from the spec: a FLVER model, of which the engine only consumes
`flver.submeshes`. -/
structure FLVER where
  submeshes : List Submesh
deriving DecidableEq, Repr, Inhabited

/-- `submesh.face_sets[0].triangulate(...)`: triangles of the first face set. -/
def firstFaceSetTriangles (sm : Submesh) : List (ℕ × ℕ × ℕ) :=
  match sm.face_sets with
  | [] => []
  | fs :: _ => fs.triangles

/-- numpy indexing `table[i]` for an integer index, which wraps negative
indices from the end. -/
def npIndexInt (t : List ℤ) (i : ℤ) : ℤ :=
  if i < 0 then t.getD (t.length - i.natAbs) 0 else t.getD i.toNat 0

/-! ## Loop consolidation (`MergedMesh.build_stacked_loops`) -/

/-- One submesh vertex's contribution to the stacked loop tables, with the
documented defaults for absent fields (position→0, bone_weights→0,
bone_indices→0, normal→(0,1,0)) and the local→global bone-index remap through
`submesh.bone_indices` when that table is present (the table itself is never
modified). -/
def stackVertex (table : Option (List ℤ)) (v : SubmeshVertex) : LoopRow :=
  { vertex :=
      { position := v.position.getD (0, 0, 0)
        bone_weights := v.bone_weights.getD (0, 0, 0, 0)
        bone_indices :=
          match v.bone_indices, table with
          | none, _ => (0, 0, 0, 0)
          | some bi, none => bi
          | some bi, some t =>
              (npIndexInt t bi.1, npIndexInt t bi.2.1, npIndexInt t bi.2.2.1, npIndexInt t bi.2.2.2) }
    normal := v.normal.getD (0, 1, 0)
    extra := v.extra }

/-- Row-stack all submesh vertices (as full loop rows) in submesh order. -/
def build_stacked_loops (submeshes : List Submesh) : List LoopRow :=
  (submeshes.map (fun sm => sm.vertices.map (stackVertex sm.bone_indices))).flatten

/-! ## Vertex reduction (`MergedMesh.merge_vertices`) -/

/-- Association-list lookup, modelling a Python dict keyed on the raw-key
bytes of a `VertexRow`. -/
def alookup {β : Type} (l : List (VertexRow × β)) (k : VertexRow) : Option β :=
  match l with
  | [] => none
  | (k', v) :: t => if k' = k then some v else alookup t k

/-- Mutable state of the `merge_vertices` loop. -/
structure MergeState where
  /-- `vertex_indices_normals`: raw key → (vertex index, representative normal). -/
  vin : List (VertexRow × ℕ × Vec3)
  /-- `inv_vertex_indices`: raw key → vertex index (no normal stored). -/
  ivi : List (VertexRow × ℕ)
  /-- `reduced_vertex_indices`: loop indices to extract from `all_vertices`. -/
  reduced : List ℕ
  /-- `vertex_count`. -/
  count : ℕ
  /-- `loop_vertex_indices` (initial contents arbitrary — `np.empty`). -/
  lvi : List ℕ
  /-- `assigned_loop_indices`. -/
  assigned : List ℕ
deriving Repr

/-- One iteration of the inner loop of `merge_vertices` for a single loop
index: skip if already assigned, otherwise look the raw key up in the primary
table, compare normals by dot product against the stored representative on a
hit, and fall through to the secondary (inverted) table when the dot product
is `< -0.9`. -/
def processLoop (V : List VertexRow) (N : List Vec3) (st : MergeState) (l : ℕ) : MergeState :=
  if l ∈ st.assigned then st
  else
    let st1 := { st with assigned := l :: st.assigned }
    let tv := V.getD l default
    let n := N.getD l (0, 0, 0)
    match alookup st1.vin tv with
    | none =>
        -- First time this vertex has been encountered.
        { st1 with
          vin := (tv, st1.count, n) :: st1.vin
          lvi := st1.lvi.set l st1.count
          reduced := st1.reduced ++ [l]
          count := st1.count + 1 }
    | some (existing_vertex_index, existing_normal) =>
        if dot3 n existing_normal < -(9 / 10 : ℚ) then
          match alookup st1.ivi tv with
          | none =>
              -- First time this inverted vertex has been encountered.
              { st1 with
                ivi := (tv, st1.count) :: st1.ivi
                lvi := st1.lvi.set l st1.count
                reduced := st1.reduced ++ [l]
                count := st1.count + 1 }
          | some existing_inv_vertex_index =>
              -- Use existing inverted vertex; no further normal comparison.
              { st1 with lvi := st1.lvi.set l existing_inv_vertex_index }
        else
          -- Existing vertex is suitable (normal is sufficiently close).
          { st1 with lvi := st1.lvi.set l existing_vertex_index }

/-- The three loop indices of one triangle, offset into the merged tables. -/
def triLoops (offset : ℕ) (t : ℕ × ℕ × ℕ) : List ℕ :=
  [t.1 + offset, t.2.1 + offset, t.2.2 + offset]

/-- The loop indices of one submesh's triangles in processing order. -/
def submeshLoopSeq (offset : ℕ) (sm : Submesh) : List ℕ :=
  (firstFaceSetTriangles sm).flatMap (triLoops offset)

/-- The full loop-index iteration sequence of `merge_vertices`: per submesh in
order, per triangle, per loop index in winding order, with each submesh's loop
indices offset by the running vertex-array length. -/
def allLoopSeq : ℕ → List Submesh → List ℕ
  | _, [] => []
  | offset, sm :: rest => submeshLoopSeq offset sm ++ allLoopSeq (offset + sm.vertices.length) rest

/-- One submesh's contribution to the merged `faces` array: its (offset)
triangles tagged with its caller-supplied material index. -/
def submeshFaces (offset : ℕ) (mat : ℕ) (sm : Submesh) : List (ℕ × ℕ × ℕ × ℕ) :=
  (firstFaceSetTriangles sm).map (fun t => (t.1 + offset, t.2.1 + offset, t.2.2 + offset, mat))

/-- The merged `faces` array (rows `(loop0, loop1, loop2, material_index)`).
The Python loop appends faces while it assigns loop vertex indices, but the
face rows do not depend on the dict state (nor vice versa), so face
construction is modelled as a separate pass over the same iteration order. -/
def allFaces : ℕ → List (Submesh × ℕ) → List (ℕ × ℕ × ℕ × ℕ)
  | _, [] => []
  | offset, (sm, mat) :: rest => submeshFaces offset mat sm ++ allFaces (offset + sm.vertices.length) rest

/-- `MergedMesh.merge_vertices`: walk all triangles of all submeshes, assign
each loop a reduced-vertex index via `processLoop`, and return
`(vertex_data, loop_vertex_indices, faces)`.  `init_lvi` models the arbitrary
initial contents of the `np.empty` `loop_vertex_indices` array. -/
def merge_vertices (submeshes : List Submesh) (all_vertices : List VertexRow)
    (submesh_material_indices : List ℕ) (loop_normals : List Vec3) (init_lvi : List ℕ) :
    List VertexRow × List ℕ × List (ℕ × ℕ × ℕ × ℕ) :=
  let st0 : MergeState := ⟨[], [], [], 0, init_lvi, []⟩
  let st := (allLoopSeq 0 submeshes).foldl (processLoop all_vertices loop_normals) st0
  (st.reduced.map (fun l => all_vertices.getD l default), st.lvi,
    allFaces 0 (submeshes.zip submesh_material_indices))

/-! ## `MergedMesh` and `from_flver` -/

/-- The merged, deduplicated mesh.  `loop_uvs` is reduced to its key set (the
global UV layer names), which is all `split_mesh`'s validation consumes; UV
data itself rides in `loop_extras`. -/
structure MergedMesh where
  vertex_data : List VertexRow
  loop_vertex_indices : List ℕ
  loop_normals : List Vec3
  loop_extras : List (List ℚ)
  loop_uvs : List String
  faces : List (ℕ × ℕ × ℕ × ℕ)
deriving DecidableEq, Repr, Inhabited

inductive PyErr where
  | typeError
  | valueError
deriving DecidableEq, Repr

/-- `MergedMesh.from_flver`.  `garbage` models the uninitialized contents of
the `np.empty` `loop_vertex_indices` array.  NaN positions are not
representable over `ℚ`, so the NaN-filtering branch is vacuous here. -/
def from_flver (flver : FLVER) (garbage : ℕ → ℕ)
    (submesh_material_indices : Option (List ℕ)) : Except PyErr MergedMesh :=
  if flver.submeshes = [] then
    .error .valueError  -- "FLVER has no submeshes."
  else
    let mats := submesh_material_indices.getD (List.range flver.submeshes.length)
    let stacked := build_stacked_loops flver.submeshes
    let all_vertices := stacked.map (·.vertex)
    let loop_normals := stacked.map (·.normal)
    let init_lvi := (List.range stacked.length).map garbage
    let out := merge_vertices flver.submeshes all_vertices mats loop_normals init_lvi
    .ok
      { vertex_data := out.1
        loop_vertex_indices := out.2.1
        loop_normals := loop_normals
        loop_extras := stacked.map (·.extra)
        loop_uvs := []
        faces := out.2.2 }

/-! ## Combined loop data (`MergedMesh.get_combined_loop_data`) -/

/-- `MergedMesh.get_combined_loop_data`: one full FLVER-style loop row per
merged loop, with vertex data (position/bones) fetched through
`loop_vertex_indices` and loop data taken in parallel.  The combined dtype is
modelled as the full `LoopRow`. -/
def get_combined_loop_data (m : MergedMesh) : List LoopRow :=
  (List.range m.loop_vertex_indices.length).map (fun l =>
    { vertex := m.vertex_data.getD (m.loop_vertex_indices.getD l 0) default
      normal := m.loop_normals.getD l (0, 0, 0)
      extra := m.loop_extras.getD l [] })

/-! ## Bone-index remapper (`MergedMesh.make_bone_indices_local`) -/

/-- `array.min()` of a numpy integer array (only ever called on non-empty
arrays in the source; the `[]` case is a don't-care default). -/
def listMinD (l : List ℤ) : ℤ :=
  match l with
  | [] => 0
  | x :: xs => xs.foldl min x

/-- `array.max()` of a numpy integer array. -/
def listMaxD (l : List ℤ) : ℤ :=
  match l with
  | [] => 0
  | x :: xs => xs.foldl max x

/-- The offset lookup table of `make_bone_indices_local`:
`lut = np.zeros(hi - lo + 1)` followed by the scatter write
`lut[submesh_bone_indices - lo] = np.arange(len(submesh_bone_indices))`,
with `lo`/`hi` the min/max over both arrays. -/
def boneLut (bone_indices : List ℤ) (submesh_bone_indices : List ℤ) : List ℤ :=
  (List.range submesh_bone_indices.length).foldl
    (fun acc j => acc.set
      (submesh_bone_indices.getD j 0
        - min (listMinD bone_indices) (listMinD submesh_bone_indices)).toNat (j : ℤ))
    (List.replicate
      (max (listMaxD bone_indices) (listMaxD submesh_bone_indices)
        - min (listMinD bone_indices) (listMinD submesh_bone_indices) + 1).toNat 0)

/-- `MergedMesh.make_bone_indices_local`: offset lookup table sized to the
observed global index range (`boneLut`), then the gather `lut[bone_indices - lo]`.
The 2-D numpy array is modelled flattened (numpy fancy indexing is
elementwise, so the shape is just carried along). -/
def make_bone_indices_local (bone_indices : List ℤ) (submesh_bone_indices : List ℤ) : List ℤ :=
  bone_indices.map (fun b =>
    (boneLut bone_indices submesh_bone_indices).getD
      (b - min (listMinD bone_indices) (listMinD submesh_bone_indices)).toNat 0)

/-! ## Bone-count-bounded subsplit (`MergedMesh.subsplit_faces`) -/

/-- `bone_indices[bone_weights == 0.0] = -1`: mark unused bone slots with the
sentinel, slot-wise over one vertex row. -/
def maskUnused (w : Vec4) (b : IVec4) : IVec4 :=
  (if w.1 = 0 then -1 else b.1,
   if w.2.1 = 0 then -1 else b.2.1,
   if w.2.2.1 = 0 then -1 else b.2.2.1,
   if w.2.2.2 = 0 then -1 else b.2.2.2)

def ivec4ToList (b : IVec4) : List ℤ := [b.1, b.2.1, b.2.2.1, b.2.2.2]

def listToIvec4 (l : List ℤ) : IVec4 := (l.getD 0 0, l.getD 1 0, l.getD 2 0, l.getD 3 0)

/-- `array.reshape((-1, n))` on a flat list: the `len / n` complete rows. -/
def chunkList {α : Type} [Inhabited α] (n : ℕ) (l : List α) : List (List α) :=
  (List.range (l.length / n)).map (fun i => (l.drop (n * i)).take n)

/-- The (possibly sentinel-normalized) per-loop bone-index rows consumed by
the subsplit walk. -/
def boneRowsOf (submesh_loops : List LoopRow) (is_bind_pose : Bool)
    (unused_bone_indices_are_minus_one : Bool) : List IVec4 :=
  if is_bind_pose && !unused_bone_indices_are_minus_one then
    -- Set all unused bone indices to -1 (inferred from zero bone weights).
    submesh_loops.map (fun r => maskUnused r.vertex.bone_weights r.vertex.bone_indices)
  else
    submesh_loops.map (fun r => r.vertex.bone_indices)

/-- One step of the subsplit walk: union the face's bones into the running
set; on overflow record a boundary at this face and the accumulated set, and
seed a fresh set from this face's bones plus the sentinel. -/
def subsplitStep (max_bones : ℕ) (acc : List ℕ × List (Finset ℤ) × Finset ℤ)
    (p : ℕ × List ℤ) : List ℕ × List (Finset ℤ) × Finset ℤ :=
  let new_indices := acc.2.2 ∪ p.2.toFinset
  if max_bones < new_indices.card then
    -- This row would exceed the limit. Start a new submesh.
    (acc.1 ++ [p.1], acc.2.1 ++ [acc.2.2], insert (-1 : ℤ) p.2.toFinset)
  else
    (acc.1, acc.2.1, new_indices)

/-- The subsplit walk over the enumerated per-face bone lists, from the
initial state `([0], [], {-1})`. -/
def subsplitFold (max_bones : ℕ) (rows : List (ℕ × List ℤ)) :
    List ℕ × List (Finset ℤ) × Finset ℤ :=
  rows.foldl (subsplitStep max_bones) ([0], [], ({-1} : Finset ℤ))

/-- `all_face_bone_indices`: the flat (masked) bone indices reshaped to one
12-entry list per triangle. -/
def faceBoneLists (submesh_loops : List LoopRow) (is_bind_pose : Bool)
    (unused_bone_indices_are_minus_one : Bool) : List (List ℤ) :=
  chunkList 12
    ((boneRowsOf submesh_loops is_bind_pose unused_bone_indices_are_minus_one).flatMap ivec4ToList)

/-- The final `subsplit_face_indices` list: the recorded boundaries plus the
closing end-of-material boundary `len(submesh_loops) // 3`. -/
def subsplitBoundaries (submesh_loops : List LoopRow) (is_bind_pose : Bool)
    (max_bones_per_submesh : ℕ) (unused_bone_indices_are_minus_one : Bool) : List ℕ :=
  (subsplitFold (max_bones_per_submesh + 1)
      (faceBoneLists submesh_loops is_bind_pose unused_bone_indices_are_minus_one).enum).1
    ++ [submesh_loops.length / 3]

/-- The accumulated distinct-bone sets of the closed subsplits plus the final
running set. -/
def subsplitBoneSets (submesh_loops : List LoopRow) (is_bind_pose : Bool)
    (max_bones_per_submesh : ℕ) (unused_bone_indices_are_minus_one : Bool) : List (Finset ℤ) :=
  (subsplitFold (max_bones_per_submesh + 1)
      (faceBoneLists submesh_loops is_bind_pose unused_bone_indices_are_minus_one).enum).2.1
    ++ [(subsplitFold (max_bones_per_submesh + 1)
      (faceBoneLists submesh_loops is_bind_pose unused_bone_indices_are_minus_one).enum).2.2]

/-- `MergedMesh.subsplit_faces`: greedy walk over a material's faces keeping a
running set of distinct bone indices (the sentinel `-1` always included);
a face whose bones would push the set past `max_bones_per_submesh + 1`
closes the current subsplit at the previous face boundary.  Each subsplit's
loops get their bone indices remapped to that subsplit's dense local space. -/
def subsplit_faces (material_index : ℕ) (submesh_loops : List LoopRow)
    (is_bind_pose : Bool) (max_bones_per_submesh : ℕ)
    (unused_bone_indices_are_minus_one : Bool) : List (ℕ × List LoopRow × List ℤ) :=
  let flat_bones : List ℤ :=
    (boneRowsOf submesh_loops is_bind_pose unused_bone_indices_are_minus_one).flatMap ivec4ToList
  -- Every three loops represent one triangle with 12 total bone indices;
  -- the walk over `faceBoneLists` records boundaries and bone sets.
  let subsplit_face_indices :=
    subsplitBoundaries submesh_loops is_bind_pose max_bones_per_submesh
      unused_bone_indices_are_minus_one
  let subsplit_bone_sets :=
    subsplitBoneSets submesh_loops is_bind_pose max_bones_per_submesh
      unused_bone_indices_are_minus_one
  (List.range (subsplit_face_indices.length - 1)).map (fun i =>
    let face_start := subsplit_face_indices.getD i 0
    let face_end := subsplit_face_indices.getD (i + 1) 0
    let loops_start := face_start * 3
    let loops_end := face_end * 3
    -- `sorted(unique_indices - {-1})` recorded when the subsplit was closed.
    let sbi : List ℤ := ((subsplit_bone_sets.getD i ∅).erase (-1)).sort (· ≤ ·)
    let subsplit_global := (flat_bones.drop (loops_start * 4)).take ((loops_end - loops_start) * 4)
    let local_flat := make_bone_indices_local subsplit_global sbi
    let subsplit_loops := (submesh_loops.drop loops_start).take (loops_end - loops_start)
    let new_loops := subsplit_loops.enum.map (fun (j, r) =>
      { r with vertex := { r.vertex with bone_indices := listToIvec4 ((local_flat.drop (4 * j)).take 4) } })
    (material_index, new_loops, sbi))

/-! ## Split submesh definitions and UV-name validation -/

/-- `SplitSubmeshDef` (NamedTuple).  `layout_uv_count` is modelled from the
spec: `layout.get_uv_count()` counts the UV fields the material's target
vertex layout declares (`VertexArrayLayout` is not under `src/`).
`is_bind_pose` and `face_set_count` stand for the corresponding `kwargs`
entries. -/
structure SplitSubmeshDef where
  material : ℕ
  layout_uv_count : ℕ
  is_bind_pose : Bool
  face_set_count : ℕ
  uv_layer_names : Option (List String)
deriving DecidableEq, Repr, Inhabited

/-- `'UVMap{i}' for i in range(uv_count)`. -/
def defaultUVNames (uv_count : ℕ) : List String :=
  (List.range uv_count).map (fun i => s!"UVMap{i}")

/-- `SplitSubmeshDef.get_validated_uv_layer_names`.  Faithfully models the
source's use of `self.uv_layer_names` (the field, not the defaulted local) in
the length check: `len(None)` raises `TypeError`, and an empty list is
measured as length 0 even after the local variable was defaulted. -/
def get_validated_uv_layer_names (d : SplitSubmeshDef)
    (global_uv_layer_names : List String) : Except PyErr (List String) :=
  -- `if not uv_layer_names:` — Python falsiness of None and [].
  let uv_names :=
    match d.uv_layer_names with
    | none => defaultUVNames d.layout_uv_count
    | some [] => defaultUVNames d.layout_uv_count
    | some l => l
  match d.uv_layer_names with
  | none => .error .typeError  -- `len(self.uv_layer_names)` with None: TypeError
  | some l =>
    if l.length ≠ d.layout_uv_count then .error .valueError
    else if uv_names.any (fun n => ¬ (n ∈ global_uv_layer_names)) then .error .valueError
    else .ok uv_names

/-- The list comprehension validating every definition up front in
`split_mesh`: definitions are validated left to right and the first exception
propagates, before any data processing. -/
def validateDefs (defs : List SplitSubmeshDef) (global_uv_layer_names : List String) :
    Except PyErr (List (List String)) :=
  match defs with
  | [] => .ok []
  | d :: rest =>
    match get_validated_uv_layer_names d global_uv_layer_names with
    | .error e => .error e
    | .ok names =>
      match validateDefs rest global_uv_layer_names with
      | .error e => .error e
      | .ok others => .ok (names :: others)

/-! ## The `np.unique` unsorting dance of `split_mesh` -/

section NpUnique

variable {α : Type} [LinearOrder α] [DecidableEq α] [Inhabited α]

/-- `np.argsort` (the positions that would sort the key list). -/
def argsort (keys : List ℕ) : List ℕ :=
  List.insertionSort (fun i j => keys.getD i 0 ≤ keys.getD j 0) (List.range keys.length)

/-- The sorted distinct rows returned by `np.unique(..., axis=0)`.
`np.unique` sorts rows by some fixed linear order on row bytes; the embedding
takes the ambient `LinearOrder α` for that role (the theorems show the final
result is independent of it). -/
def npUniqueSorted (rows : List α) : List α :=
  List.insertionSort (· ≤ ·) rows.dedup

/-- `np.unique`'s `return_index`: for each sorted unique row, the index of
its first occurrence in `rows`. -/
def npFirstIndices (rows : List α) : List ℕ :=
  (npUniqueSorted rows).map (fun u => List.indexOf u rows)

/-- `sorting_indices = np.argsort(first_indices)`. -/
def npSortingIndices (rows : List α) : List ℕ :=
  argsort (npFirstIndices rows)

/-- `inverse_sorting_indices = np.argsort(sorting_indices)`. -/
def npInvSortingIndices (rows : List α) : List ℕ :=
  argsort (npSortingIndices rows)

/-- Lines 595–606 of `mesh_tools.py`: `np.unique(..., return_index=True,
return_inverse=True, axis=0)` (which sorts the unique rows), followed by the
`argsort`-based unsorting of the vertex table (`submesh_vertices`) and of the
face vertex indices (`return_inverse` composed with the inverse sorting
indices). -/
def np_unique_dance (rows : List α) : List α × List ℕ :=
  ((npSortingIndices rows).map (fun j => (npUniqueSorted rows).getD j default),
   (List.range rows.length).map (fun i =>
     (npInvSortingIndices rows).getD
       (List.indexOf (rows.getD i default) (npUniqueSorted rows)) 0))

/-- The spec's description of the final vertex reduction: unique rows in
first-occurrence order.  (Used to compare `np_unique_dance` against.) -/
def firstUnique : List α → List α
  | [] => []
  | x :: xs => x :: firstUnique (xs.filter (fun y => y ≠ x))
  termination_by l => l.length
  decreasing_by
    simp only [List.length_cons]
    exact Nat.lt_succ_of_le (List.length_filter_le _ _)

end NpUnique

/-! ## Linear order on loop rows (the row-byte order `np.unique` sorts by) -/

/-- Flatten a loop row to its numeric columns (injective). -/
def LoopRow.enc (r : LoopRow) : List ℚ :=
  r.vertex.position.1 :: r.vertex.position.2.1 :: r.vertex.position.2.2 ::
  r.vertex.bone_weights.1 :: r.vertex.bone_weights.2.1 ::
  r.vertex.bone_weights.2.2.1 :: r.vertex.bone_weights.2.2.2 ::
  (r.vertex.bone_indices.1 : ℚ) :: (r.vertex.bone_indices.2.1 : ℚ) ::
  (r.vertex.bone_indices.2.2.1 : ℚ) :: (r.vertex.bone_indices.2.2.2 : ℚ) ::
  r.normal.1 :: r.normal.2.1 :: r.normal.2.2 :: r.extra

instance : LinearOrder LoopRow :=
  LinearOrder.lift' LoopRow.enc (by
    rintro ⟨⟨⟨p1, p2, p3⟩, ⟨w1, w2, w3, w4⟩, ⟨b1, b2, b3, b4⟩⟩, ⟨n1, n2, n3⟩, e⟩
      ⟨⟨⟨p1', p2', p3'⟩, ⟨w1', w2', w3', w4'⟩, ⟨b1', b2', b3', b4'⟩⟩, ⟨n1', n2', n3'⟩, e'⟩ h
    simp only [LoopRow.enc, List.cons.injEq, Int.cast_inj] at h
    obtain ⟨h1, h2, h3, h4, h5, h6, h7, h8, h9, h10, h11, h12, h13, h14, h15⟩ := h
    subst h1 h2 h3 h4 h5 h6 h7 h8 h9 h10 h11 h12 h13 h14 h15
    rfl)

/-! ## Mesh resplitting (`MergedMesh.split_mesh`) -/

/-- One emitted FLVER submesh (the fields of the constructed `Submesh` that
the engine computes: vertex table, face sets, local bone-index table). -/
structure OutSubmesh where
  material : ℕ
  vertices : List LoopRow
  face_sets : List (List (ℕ × ℕ × ℕ))
  bone_indices : Option (List ℤ)
deriving DecidableEq, Repr, Inhabited

/-- Reassemble implicit face indices `[0, 1, 2, 3, ...]` into triangles. -/
def chunk3 (l : List ℕ) : List (ℕ × ℕ × ℕ) :=
  (List.range (l.length / 3)).map (fun i => (l.getD (3 * i) 0, l.getD (3 * i + 1) 0, l.getD (3 * i + 2) 0))

/-- `bone_indices[bone_indices == -1] = 0` on one reduced vertex row. -/
def replaceUnusedWithZero (r : LoopRow) : LoopRow :=
  let f := fun (z : ℤ) => if z = -1 then 0 else z
  { r with vertex := { r.vertex with bone_indices :=
      (f r.vertex.bone_indices.1, f r.vertex.bone_indices.2.1,
       f r.vertex.bone_indices.2.2.1, f r.vertex.bone_indices.2.2.2) } }

/-- `MergedMesh.split_mesh`.  Validation (bone-limit parameter, UV layer
names) happens before any data processing; then faces and loop rows are
gathered per material tag, optionally subsplit by bone count, and finally
reduced to unique vertex rows via the `np.unique` dance. -/
def split_mesh (m : MergedMesh) (split_submesh_defs : List SplitSubmeshDef)
    (use_submesh_bone_indices : Bool) (max_bones_per_submesh : ℕ)
    (unused_bone_indices_are_minus_one : Bool) : Except PyErr (List OutSubmesh) :=
  if use_submesh_bone_indices && decide (max_bones_per_submesh < 3) then
    .error .valueError  -- "`max_bones_per_submesh` must be >= 3"
  else
    match validateDefs split_submesh_defs m.loop_uvs with
    | .error e => .error e
    | .ok _ =>
      let merged_loops := get_combined_loop_data m
      let split_submesh_info : List (ℕ × List LoopRow × Option (List ℤ)) :=
        (List.range split_submesh_defs.length).flatMap (fun material_index =>
          let submesh_faces := (m.faces.filter (fun f => f.2.2.2 = material_index)).map
            (fun f => (f.1, f.2.1, f.2.2.1))
          if submesh_faces.isEmpty then
            []  -- unused material index: do not create any submeshes
          else
            let submesh_loop_indices := submesh_faces.flatMap (fun t => [t.1, t.2.1, t.2.2])
            let submesh_loops := submesh_loop_indices.map (fun l => merged_loops.getD l default)
            if use_submesh_bone_indices then
              (subsplit_faces material_index submesh_loops
                  (split_submesh_defs.getD material_index default).is_bind_pose
                  max_bones_per_submesh unused_bone_indices_are_minus_one).map
                (fun p => (p.1, p.2.1, some p.2.2))
            else
              [(material_index, submesh_loops, (none : Option (List ℤ)))])
      .ok (split_submesh_info.map (fun info =>
        let dance := np_unique_dance info.2.1
        let submesh_vertices :=
          if unused_bone_indices_are_minus_one then dance.1.map replaceUnusedWithZero else dance.1
        let tris := chunk3 dance.2
        let fsc := (split_submesh_defs.getD info.1 default).face_set_count
        { material := info.1
          vertices := submesh_vertices
          face_sets := List.replicate (max fsc 1) tris
          bone_indices := info.2.2 }))

/-- The distinct bone indices (sentinel `-1` included) referenced by faces
`b ≤ k < e` of a per-face bone list: the specification-side value of the
subsplit walk's running set. -/
def SegU (F : List (List ℤ)) (b e : ℕ) : Finset ℤ :=
  insert (-1) (((F.drop b).take (e - b)).foldl (fun s f => s ∪ f.toFinset) ∅)

/-! ## Concrete example inputs used by scenario theorems -/

/-- A loop row with the given bone indices (positions/weights/normals are
irrelevant to the subsplit walk when `unused_bone_indices_are_minus_one`). -/
def boneLoop (bi : IVec4) : LoopRow := ⟨⟨(0, 0, 0), (1, 1, 1, 1), bi⟩, (0, 1, 0), []⟩

/-- C4 counterexample input: face 0 uses bones `{1,2,3}`, face 1 uses
`{1,2,4}`; with `max_bones_per_submesh = 4` the running set reaches exactly
`4 + 1 = 5` distinct values (sentinel included) on face 1. -/
def c4Loops : List LoopRow :=
  [boneLoop (1, 2, 3, 1), boneLoop (1, 2, 3, 1), boneLoop (1, 2, 3, 1),
   boneLoop (1, 2, 4, 1), boneLoop (1, 2, 4, 1), boneLoop (1, 2, 4, 1)]

/-- C5 counterexample input: face 0 uses bone `{1}`, face 1 uses twelve
distinct bones `0..11` — more than `max_bones_per_submesh = 3` on its own. -/
def c5Loops : List LoopRow :=
  [boneLoop (1, 1, 1, 1), boneLoop (1, 1, 1, 1), boneLoop (1, 1, 1, 1),
   boneLoop (0, 1, 2, 3), boneLoop (4, 5, 6, 7), boneLoop (8, 9, 10, 11)]

/-- A submesh whose vertex rows are placeholders (`merge_vertices` consumes
only the triangle list and the vertex-array length; the consolidated rows and
normals are passed to it separately). -/
def triSub (n : ℕ) (tris : List (ℕ × ℕ × ℕ)) : Submesh :=
  ⟨List.replicate n default, [⟨tris⟩], none⟩

/-- The shared raw key of the C3 scenario loops. -/
def c3Vertex : VertexRow := ⟨(1, 2, 3), (1, 0, 0, 0), (5, 0, 0, 0)⟩

/-- C3 scenario A: two loops with normals `(0,1,0)` and `(0,0.99,-0.14)`. -/
def c3MergeA : List VertexRow × List ℕ × List (ℕ × ℕ × ℕ × ℕ) :=
  merge_vertices [triSub 2 [(0, 1, 1)]] [c3Vertex, c3Vertex] [0]
    [(0, 1, 0), (0, 99/100, -(14/100))] [0, 0]

/-- C3 scenario B: two loops with normals `(0,1,0)` and `(0,-1,0)`. -/
def c3MergeB : List VertexRow × List ℕ × List (ℕ × ℕ × ℕ × ℕ) :=
  merge_vertices [triSub 2 [(0, 1, 1)]] [c3Vertex, c3Vertex] [0]
    [(0, 1, 0), (0, -1, 0)] [0, 0]

/-- C3 scenario C: a third loop with normal `(0,-0.95,0.31)` after the two
loops of scenario B. -/
def c3MergeC : List VertexRow × List ℕ × List (ℕ × ℕ × ℕ × ℕ) :=
  merge_vertices [triSub 3 [(0, 1, 2)]] [c3Vertex, c3Vertex, c3Vertex] [0]
    [(0, 1, 0), (0, -1, 0), (0, -(19/20), 31/100)] [0, 0, 0]

/-- C6 counterexample: one submesh with four distinct-position vertices of
which only the first three are referenced by the single triangle of its first
face set; the `np.empty` garbage is `7` everywhere. -/
def c6Flver : FLVER :=
  ⟨[⟨[⟨some (1, 0, 0), none, none, none, []⟩, ⟨some (2, 0, 0), none, none, none, []⟩,
      ⟨some (3, 0, 0), none, none, none, []⟩, ⟨some (9, 9, 9), none, none, none, []⟩],
     [⟨[(0, 1, 2)]⟩], none⟩]⟩

def c6Mesh : MergedMesh :=
  (from_flver c6Flver (fun _ => 7) none).toOption.getD default

/-! ## Round-trip comparison helpers -/

/-- The number of loops contributed by the first `k` submeshes: the offset at
which submesh `k`'s rows start in the stacked loop tables. -/
def offsetOf (sms : List Submesh) (k : ℕ) : ℕ :=
  ((sms.take k).map (fun sm => sm.vertices.length)).sum

/-- Submesh-local vertex `j` as its consolidated loop row (defaults filled,
local bone indices remapped through the submesh's bone table). -/
def stackedRowOf (sm : Submesh) (j : ℕ) : LoopRow :=
  stackVertex sm.bone_indices (sm.vertices.getD j default)

/-- A native submesh's triangles as triples of consolidated loop rows. -/
def origFaceRows (sm : Submesh) : List (LoopRow × LoopRow × LoopRow) :=
  (firstFaceSetTriangles sm).map
    (fun t => (stackedRowOf sm t.1, stackedRowOf sm t.2.1, stackedRowOf sm t.2.2))

/-- An emitted submesh's primary-face-set triangles as triples of its vertex
rows. -/
def outFaceRows (o : OutSubmesh) : List (LoopRow × LoopRow × LoopRow) :=
  (o.face_sets.headD []).map
    (fun t => (o.vertices.getD t.1 default, o.vertices.getD t.2.1 default,
      o.vertices.getD t.2.2 default))

/-- The loop rows `split_mesh` gathers for one material whose triangle list is
`tris`: three consolidated rows per triangle, in face order. -/
def rowsOfTris (sm : Submesh) (tris : List (ℕ × ℕ × ℕ)) : List LoopRow :=
  tris.flatMap (fun t => [stackedRowOf sm t.1, stackedRowOf sm t.2.1, stackedRowOf sm t.2.2])

/-- A native submesh's loop rows as gathered back by `split_mesh`. -/
def origLoopRows (sm : Submesh) : List LoopRow :=
  rowsOfTris sm (firstFaceSetTriangles sm)

/-- The body of `split_mesh`'s per-material comprehension, specialized to
`use_submesh_bone_indices = false` (definitionally equal to the inlined lambda
of `split_mesh` at that flag value). -/
def splitBranch (m : MergedMesh) (mi : ℕ) : List (ℕ × List LoopRow × Option (List ℤ)) :=
  let submesh_faces := (m.faces.filter (fun f => f.2.2.2 = mi)).map
    (fun f => (f.1, f.2.1, f.2.2.1))
  if submesh_faces.isEmpty then []
  else
    let submesh_loop_indices := submesh_faces.flatMap (fun t => [t.1, t.2.1, t.2.2])
    let submesh_loops := submesh_loop_indices.map (fun l => (get_combined_loop_data m).getD l default)
    [(mi, submesh_loops, (none : Option (List ℤ)))]

/-- The final per-submesh construction of `split_mesh`, specialized to
`unused_bone_indices_are_minus_one = false` (definitionally equal to the
inlined lambda of `split_mesh` at that flag value). -/
def splitFinish (defs : List SplitSubmeshDef) (info : ℕ × List LoopRow × Option (List ℤ)) :
    OutSubmesh :=
  let dance := np_unique_dance info.2.1
  { material := info.1
    vertices := dance.1
    face_sets := List.replicate (max (defs.getD info.1 default).face_set_count 1) (chunk3 dance.2)
    bone_indices := info.2.2 }

/-- C1 example vertex: all fields present. -/
def rtVert (p : Vec3) : SubmeshVertex :=
  ⟨some p, some (1, 0, 0, 0), some (5, 0, 0, 0), some (0, 1, 0), []⟩

/-- C1 counterexample FLVER: one submesh with four distinct-position
vertices, of which vertex 3 (position `(9,9,9)`) is referenced by no triangle
of the first face set. -/
def rtFlver : FLVER :=
  ⟨[⟨[rtVert (1, 0, 0), rtVert (0, 2, 0), rtVert (0, 0, 3), rtVert (9, 9, 9)],
     [⟨[(0, 1, 2), (2, 1, 0)]⟩], none⟩]⟩

/-- C1 matching split definition (identical full layout; no UV layers). -/
def rtDefs : List SplitSubmeshDef := [⟨0, 0, true, 1, some []⟩]

def rtMesh : MergedMesh := (from_flver rtFlver (fun _ => 0) none).toOption.getD default

def rtSplit : Except PyErr (List OutSubmesh) := split_mesh rtMesh rtDefs false 38 false

def rtOuts : List OutSubmesh := rtSplit.toOption.getD []

/-- C1 witness FLVER: the counterexample's submesh with the unreferenced
vertex removed. -/
def rtFlver2 : FLVER :=
  ⟨[⟨[rtVert (1, 0, 0), rtVert (0, 2, 0), rtVert (0, 0, 3)],
     [⟨[(0, 1, 2), (2, 1, 0)]⟩], none⟩]⟩

/-! ## Supporting lemmas: list min/max -/

theorem foldl_min_le_init (l : List ℤ) (a : ℤ) : l.foldl min a ≤ a := by
  induction l generalizing a with
  | nil => exact le_refl a
  | cons y t ih => exact le_trans (ih (min a y)) (min_le_left a y)

theorem foldl_min_le_mem (l : List ℤ) (a x : ℤ) (h : x ∈ l) : l.foldl min a ≤ x := by
  induction l generalizing a with
  | nil => cases h
  | cons y t ih =>
    rcases List.mem_cons.1 h with rfl | hx
    · exact le_trans (foldl_min_le_init t (min a x)) (min_le_right a x)
    · exact ih (min a y) hx

theorem listMinD_le (l : List ℤ) (x : ℤ) (h : x ∈ l) : listMinD l ≤ x := by
  cases l with
  | nil => cases h
  | cons y t =>
    rcases List.mem_cons.1 h with rfl | hx
    · exact foldl_min_le_init t x
    · exact foldl_min_le_mem t y x hx

theorem le_foldl_max_init (l : List ℤ) (a : ℤ) : a ≤ l.foldl max a := by
  induction l generalizing a with
  | nil => exact le_refl a
  | cons y t ih => exact le_trans (le_max_left a y) (ih (max a y))

theorem le_foldl_max_mem (l : List ℤ) (a x : ℤ) (h : x ∈ l) : x ≤ l.foldl max a := by
  induction l generalizing a with
  | nil => cases h
  | cons y t ih =>
    rcases List.mem_cons.1 h with rfl | hx
    · exact le_trans (le_max_right a x) (le_foldl_max_init t (max a x))
    · exact ih (max a y) hx

theorem le_listMaxD (l : List ℤ) (x : ℤ) (h : x ∈ l) : x ≤ listMaxD l := by
  cases l with
  | nil => cases h
  | cons y t =>
    rcases List.mem_cons.1 h with rfl | hx
    · exact le_foldl_max_init t x
    · exact le_foldl_max_mem t y x hx

/-! ## Supporting lemmas: the scatter-write lookup table -/

theorem lutFold_length (f : ℕ → ℕ) (g : ℕ → ℤ) (n : ℕ) (acc : List ℤ) :
    ((List.range n).foldl (fun a j => a.set (f j) (g j)) acc).length = acc.length := by
  induction n generalizing acc with
  | zero => rfl
  | succ m ih =>
    rw [List.range_succ, List.foldl_append]
    simp [ih]

theorem lutFold_getD_of_ne (f : ℕ → ℕ) (g : ℕ → ℤ) (n : ℕ) (acc : List ℤ) (p : ℕ)
    (h : ∀ j, j < n → f j ≠ p) :
    ((List.range n).foldl (fun a j => a.set (f j) (g j)) acc).getD p 0 = acc.getD p 0 := by
  induction n generalizing acc with
  | zero => rfl
  | succ m ih =>
    rw [List.range_succ, List.foldl_append]
    simp only [List.foldl_cons, List.foldl_nil]
    rw [List.getD_eq_getElem?_getD, List.getElem?_set_ne (h m (Nat.lt_succ_self m)),
      ← List.getD_eq_getElem?_getD]
    exact ih acc (fun j hj => h j (Nat.lt_succ_of_lt hj))

theorem lutFold_getD_of_hit (f : ℕ → ℕ) (g : ℕ → ℤ) : ∀ (n : ℕ) (acc : List ℤ),
    (∀ j k, j < n → k < n → f j = f k → j = k) → ∀ j, j < n → f j < acc.length →
    ((List.range n).foldl (fun a j => a.set (f j) (g j)) acc).getD (f j) 0 = g j := by
  intro n
  induction n with
  | zero => intro acc _ j hj; omega
  | succ m ih =>
    intro acc hinj j hj hp
    rw [List.range_succ, List.foldl_append]
    simp only [List.foldl_cons, List.foldl_nil]
    by_cases hjm : j = m
    · subst hjm
      rw [List.getD_eq_getElem?_getD, List.getElem?_set_self
        (by rw [lutFold_length]; exact hp)]
      simp
    · have hjlt : j < m := Nat.lt_of_le_of_ne (Nat.le_of_lt_succ hj) hjm
      have hne : f m ≠ f j := fun h =>
        hjm (hinj j m (Nat.lt_succ_of_lt hjlt) (Nat.lt_succ_self m) h.symm)
      rw [List.getD_eq_getElem?_getD, List.getElem?_set_ne hne, ← List.getD_eq_getElem?_getD]
      exact ih acc (fun a b ha hb => hinj a b (Nat.lt_succ_of_lt ha) (Nat.lt_succ_of_lt hb))
        j hjlt hp

theorem getD_replicate_zero (n p : ℕ) : (List.replicate n (0 : ℤ)).getD p 0 = 0 := by
  rw [List.getD_eq_getElem?_getD, List.getElem?_replicate]
  by_cases h : p < n <;> simp [h]

/-- The core behavior of the offset lookup table built by
`make_bone_indices_local`: a value in the used-bone set maps to its position
there; any other value falls through to the zero initialization. -/
theorem boneLut_getD (input S : List ℤ) (hnd : S.Nodup) (b : ℤ)
    (hb : b ∈ input ∨ b ∈ S) :
    (boneLut input S).getD (b - min (listMinD input) (listMinD S)).toNat 0 =
      (if b ∈ S then ((List.indexOf b S : ℕ) : ℤ) else 0) := by
  unfold boneLut
  set lo := min (listMinD input) (listMinD S) with hlodef
  set hi := max (listMaxD input) (listMaxD S) with hhidef
  have hloS : ∀ x ∈ S, lo ≤ x := fun x hx =>
    le_trans (min_le_right _ _) (listMinD_le S x hx)
  have hlo : lo ≤ b := by
    rcases hb with h | h
    · exact le_trans (min_le_left _ _) (listMinD_le input b h)
    · exact hloS b h
  have hhi : b ≤ hi := by
    rcases hb with h | h
    · exact le_trans (le_listMaxD input b h) (le_max_left _ _)
    · exact le_trans (le_listMaxD S b h) (le_max_right _ _)
  have hinj : ∀ j k, j < S.length → k < S.length →
      (S.getD j 0 - lo).toNat = (S.getD k 0 - lo).toNat → j = k := by
    intro j k hj hk h
    have hjm : S.getD j 0 ∈ S := by rw [List.getD_eq_getElem S 0 hj]; exact List.getElem_mem hj
    have hkm : S.getD k 0 ∈ S := by rw [List.getD_eq_getElem S 0 hk]; exact List.getElem_mem hk
    have h1 : lo ≤ S.getD j 0 := hloS _ hjm
    have h2 : lo ≤ S.getD k 0 := hloS _ hkm
    have heq : S.getD j 0 = S.getD k 0 := by omega
    rw [List.getD_eq_getElem S 0 hj, List.getD_eq_getElem S 0 hk] at heq
    exact (List.Nodup.getElem_inj_iff hnd).1 heq
  by_cases hbS : b ∈ S
  · have hidx : List.indexOf b S < S.length := List.indexOf_lt_length.2 hbS
    have hSidx : S.getD (List.indexOf b S) 0 = b := by
      rw [List.getD_eq_getElem S 0 hidx]
      exact List.indexOf_get hidx
    have hbound : (b - lo).toNat <
        (List.replicate (hi - lo + 1).toNat (0 : ℤ)).length := by
      rw [List.length_replicate]
      omega
    have hmain := lutFold_getD_of_hit (fun j => (S.getD j 0 - lo).toNat) (fun j => (j : ℤ))
      S.length (List.replicate (hi - lo + 1).toNat 0) hinj (List.indexOf b S) hidx
      (by simp only [hSidx]; exact hbound)
    simp only [hSidx] at hmain
    rw [if_pos hbS]
    exact hmain
  · have hne : ∀ j, j < S.length → (S.getD j 0 - lo).toNat ≠ (b - lo).toNat := by
      intro j hj h
      have hjm : S.getD j 0 ∈ S := by rw [List.getD_eq_getElem S 0 hj]; exact List.getElem_mem hj
      have h1 : lo ≤ S.getD j 0 := hloS _ hjm
      have heq : S.getD j 0 = b := by omega
      exact hbS (heq ▸ hjm)
    have hmain := lutFold_getD_of_ne (fun j => (S.getD j 0 - lo).toNat) (fun j => (j : ℤ))
      S.length (List.replicate (hi - lo + 1).toNat 0) ((b - lo).toNat) hne
    rw [if_neg hbS]
    rw [hmain, getD_replicate_zero]

/-- A value outside the used-bone set always falls through to the zero
initialization (no Nodup assumption needed). -/
theorem boneLut_getD_of_notmem (input S : List ℤ) (b : ℤ) (hb : b ∈ input) (hbS : b ∉ S) :
    (boneLut input S).getD (b - min (listMinD input) (listMinD S)).toNat 0 = 0 := by
  unfold boneLut
  set lo := min (listMinD input) (listMinD S) with hlodef
  set hi := max (listMaxD input) (listMaxD S) with hhidef
  have hlo : lo ≤ b := le_trans (min_le_left _ _) (listMinD_le input b hb)
  have hne : ∀ j, j < S.length → (S.getD j 0 - lo).toNat ≠ (b - lo).toNat := by
    intro j hj h
    have hjm : S.getD j 0 ∈ S := by rw [List.getD_eq_getElem S 0 hj]; exact List.getElem_mem hj
    have h1 : lo ≤ S.getD j 0 := le_trans (min_le_right _ _) (listMinD_le S _ hjm)
    have heq : S.getD j 0 = b := by omega
    exact hbS (heq ▸ hjm)
  rw [lutFold_getD_of_ne (fun j => (S.getD j 0 - lo).toNat) (fun j => (j : ℤ))
    S.length (List.replicate (hi - lo + 1).toNat 0) ((b - lo).toNat) hne,
    getD_replicate_zero]

/-- `make_bone_indices_local` entry-wise, for in-bounds positions. -/
theorem make_bone_indices_local_getD (input S : List ℤ) (i : ℕ) (hi : i < input.length) :
    (make_bone_indices_local input S).getD i 0 =
      (boneLut input S).getD
        (input.getD i 0 - min (listMinD input) (listMinD S)).toNat 0 := by
  unfold make_bone_indices_local
  rw [List.getD_eq_getElem _ _ (by rw [List.length_map]; exact hi), List.getElem_map,
    ← List.getD_eq_getElem input 0 hi]

/-! ## Theorems for the claims -/

/-- **C8** (confirmed).  For every non-empty strictly sorted used-bone list
`S` and every non-empty input array all of whose entries belong to `S`,
`make_bone_indices_local` returns the same-shaped array in which each entry
is the position of the corresponding input value in `S`.  (The non-emptiness
hypotheses reflect that numpy's `.min()`/`.max()` reject zero-size arrays.) -/
theorem claimC8_make_bone_indices_local_correct (input S : List ℤ)
    (hS : List.Sorted (· < ·) S) (hSne : S ≠ []) (hin : input ≠ [])
    (hmem : ∀ x ∈ input, x ∈ S) :
    make_bone_indices_local input S = input.map (fun x => ((List.indexOf x S : ℕ) : ℤ)) ∧
    (make_bone_indices_local input S).length = input.length := by
  have hnd : S.Nodup := hS.nodup
  have hmain : make_bone_indices_local input S
      = input.map (fun x => ((List.indexOf x S : ℕ) : ℤ)) := by
    unfold make_bone_indices_local
    refine List.map_congr_left ?_
    intro b hb
    rw [boneLut_getD input S hnd b (Or.inl hb), if_pos (hmem b hb)]
  exact ⟨hmain, by rw [hmain]; exact List.length_map input _⟩

/-- **C8 witness**: `S = [2, 5, 9]`, input `[5, 2, 9, 9]` remaps to
`[1, 0, 2, 2]`. -/
theorem claimC8_witness :
    make_bone_indices_local [5, 2, 9, 9] [2, 5, 9]
      = [5, 2, 9, 9].map (fun x => ((List.indexOf x [2, 5, 9] : ℕ) : ℤ)) ∧
    (make_bone_indices_local [5, 2, 9, 9] [2, 5, 9]).length = ([5, 2, 9, 9] : List ℤ).length :=
  claimC8_make_bone_indices_local_correct [5, 2, 9, 9] [2, 5, 9]
    (by decide) (by decide) (by decide) (by decide)

/-- **C10** (confirmed).  Any input entry absent from the used-bone set
(including the `-1` sentinel) is silently mapped to local index `0` through
the zero-initialized lookup table — the same local index the smallest used
bone receives — rather than raising or being preserved. -/
theorem claimC10_sentinel_maps_to_zero (input S : List ℤ) (hSne : S ≠ []) :
    (∀ i, i < input.length → input.getD i 0 ∉ S →
      (make_bone_indices_local input S).getD i 0 = 0) ∧
    (List.Sorted (· < ·) S → ∀ i, i < input.length → input.getD i 0 = S.headD 0 →
      (make_bone_indices_local input S).getD i 0 = 0) := by
  constructor
  · intro i hi hmem
    rw [make_bone_indices_local_getD input S i hi]
    exact boneLut_getD_of_notmem input S (input.getD i 0)
      (by rw [List.getD_eq_getElem input 0 hi]; exact List.getElem_mem hi) hmem
  · intro hS i hi hhead
    have hnd : S.Nodup := hS.nodup
    have hheadmem : S.headD 0 ∈ S := by
      cases S with
      | nil => exact absurd rfl hSne
      | cons a t => exact List.mem_cons_self a t
    rw [make_bone_indices_local_getD input S i hi, hhead,
      boneLut_getD input S hnd (S.headD 0) (Or.inr hheadmem), if_pos hheadmem]
    cases S with
    | nil => exact absurd rfl hSne
    | cons a t => simp [List.indexOf_cons]

/-- **C10 witness**: with used-bone set `[2, 5]`, the sentinel `-1` in the
input maps to local index `0`, as does the smallest used bone `2`. -/
theorem claimC10_witness :
    ((-1 : ℤ) ∉ ([2, 5] : List ℤ) ∧
      (make_bone_indices_local [-1, 2] [2, 5]).getD 0 0 = 0) ∧
    (make_bone_indices_local [-1, 2] [2, 5]).getD 1 0 = 0 :=
  ⟨⟨by decide, (claimC10_sentinel_maps_to_zero [-1, 2] [2, 5] (by decide)).1 0 (by decide)
      (by decide)⟩,
    (claimC10_sentinel_maps_to_zero [-1, 2] [2, 5] (by decide)).2 (by decide) 1 (by decide)
      (by decide)⟩

/-! ## Supporting lemmas: association lists, `List.set`/append access -/

theorem alookup_cons {β : Type} (k' : VertexRow) (v : β) (t : List (VertexRow × β))
    (k : VertexRow) :
    alookup ((k', v) :: t) k = if k' = k then some v else alookup t k := rfl

theorem alookup_mem {β : Type} (t : List (VertexRow × β)) (k : VertexRow) (v : β)
    (h : alookup t k = some v) : (k, v) ∈ t := by
  induction t with
  | nil => cases h
  | cons p rest ih =>
    obtain ⟨k', v'⟩ := p
    rw [alookup_cons] at h
    by_cases hk : k' = k
    · rw [if_pos hk] at h
      subst hk
      obtain rfl : v' = v := Option.some.injEq _ _ ▸ h
      exact List.mem_cons_self _ _
    · rw [if_neg hk] at h
      exact List.mem_cons_of_mem _ (ih h)

theorem getD_set_self_nat (l : List ℕ) (i a : ℕ) (h : i < l.length) :
    (l.set i a).getD i 0 = a := by
  rw [List.getD_eq_getElem?_getD, List.getElem?_set_self h]
  rfl

theorem getD_set_ne_nat (l : List ℕ) (i j a : ℕ) (h : i ≠ j) :
    (l.set i a).getD j 0 = l.getD j 0 := by
  rw [List.getD_eq_getElem?_getD, List.getElem?_set_ne h, ← List.getD_eq_getElem?_getD]

theorem getD_append_left_nat (l₁ l₂ : List ℕ) (i : ℕ) (h : i < l₁.length) :
    (l₁ ++ l₂).getD i 0 = l₁.getD i 0 := by
  rw [List.getD_eq_getElem?_getD, List.getElem?_append_left h, ← List.getD_eq_getElem?_getD]

theorem getD_append_last_nat (l : List ℕ) (x : ℕ) :
    (l ++ [x]).getD l.length 0 = x := by
  rw [List.getD_eq_getElem?_getD, List.getElem?_append_right (le_refl l.length)]
  simp

theorem count_map_append_single (V : List VertexRow) (red : List ℕ) (x : ℕ) (r : VertexRow) :
    ((red ++ [x]).map (fun l => V.getD l default)).count r
      = (red.map (fun l => V.getD l default)).count r
        + (if V.getD x default = r then 1 else 0) := by
  rw [List.map_append, List.count_append]
  simp [List.count_cons, List.count_nil, beq_iff_eq]

/-! ## The `merge_vertices` loop invariant -/

/-- Invariant of the `merge_vertices` state: the reduced vertex list tracks
the vertex count; every primary/secondary table entry points at a reduced
vertex whose raw key is the entry's key; each raw key owns at most one
primary and at most one secondary reduced vertex (`key_count`); and every
assigned in-bounds loop's vertex index is valid and key-preserving. -/
structure MergeInv (V : List VertexRow) (L : ℕ) (st : MergeState) : Prop where
  len_red : st.reduced.length = st.count
  lvi_len : st.lvi.length = L
  prim : ∀ p ∈ st.vin, p.2.1 < st.count ∧ V.getD (st.reduced.getD p.2.1 0) default = p.1
  sec : ∀ p ∈ st.ivi, p.2 < st.count ∧ V.getD (st.reduced.getD p.2 0) default = p.1
  key_count : ∀ r : VertexRow,
    (st.reduced.map (fun l => V.getD l default)).count r
      = (if alookup st.vin r = none then 0 else 1)
        + (if alookup st.ivi r = none then 0 else 1)
  assigned_lt : ∀ l ∈ st.assigned, l < L → st.lvi.getD l 0 < st.count
  assigned_key : ∀ l ∈ st.assigned, l < L →
    V.getD (st.reduced.getD (st.lvi.getD l 0) 0) default = V.getD l default

/-- `processLoop` on an already-assigned loop is a no-op. -/
theorem processLoop_assigned_eq (V : List VertexRow) (N : List Vec3) (st : MergeState)
    (l : ℕ) (hl : l ∈ st.assigned) : processLoop V N st l = st := by
  unfold processLoop
  rw [if_pos hl]

/-- Primary miss: a fresh vertex is created from this loop. -/
theorem processLoop_miss (V : List VertexRow) (N : List Vec3) (st : MergeState) (l : ℕ)
    (hl : l ∉ st.assigned) (hv : alookup st.vin (V.getD l default) = none) :
    processLoop V N st l =
      { st with
        assigned := l :: st.assigned
        vin := (V.getD l default, st.count, N.getD l (0, 0, 0)) :: st.vin
        lvi := st.lvi.set l st.count
        reduced := st.reduced ++ [l]
        count := st.count + 1 } := by
  unfold processLoop
  rw [if_neg hl]
  dsimp only
  rw [hv]

/-- Primary hit with dot product `≥ -0.9`: the stored vertex index is
reused; no new vertex and no secondary lookup. -/
theorem processLoop_hit_close (V : List VertexRow) (N : List Vec3) (st : MergeState)
    (l : ℕ) (i : ℕ) (en : Vec3) (hl : l ∉ st.assigned)
    (hv : alookup st.vin (V.getD l default) = some (i, en))
    (hdot : ¬ dot3 (N.getD l (0, 0, 0)) en < -(9 / 10 : ℚ)) :
    processLoop V N st l = { st with assigned := l :: st.assigned, lvi := st.lvi.set l i } := by
  unfold processLoop
  rw [if_neg hl]
  dsimp only
  rw [hv]
  dsimp only
  rw [if_neg hdot]

/-- Primary hit with dot product `< -0.9`, secondary miss: a fresh inverted
vertex is created. -/
theorem processLoop_inverted_miss (V : List VertexRow) (N : List Vec3) (st : MergeState)
    (l : ℕ) (i : ℕ) (en : Vec3) (hl : l ∉ st.assigned)
    (hv : alookup st.vin (V.getD l default) = some (i, en))
    (hdot : dot3 (N.getD l (0, 0, 0)) en < -(9 / 10 : ℚ))
    (hiv : alookup st.ivi (V.getD l default) = none) :
    processLoop V N st l =
      { st with
        assigned := l :: st.assigned
        ivi := (V.getD l default, st.count) :: st.ivi
        lvi := st.lvi.set l st.count
        reduced := st.reduced ++ [l]
        count := st.count + 1 } := by
  unfold processLoop
  rw [if_neg hl]
  dsimp only
  rw [hv]
  dsimp only
  rw [if_pos hdot]
  rw [hiv]

/-- Primary hit with dot product `< -0.9`, secondary hit: the secondary
vertex index is reused with no further normal comparison. -/
theorem processLoop_inverted_hit (V : List VertexRow) (N : List Vec3) (st : MergeState)
    (l : ℕ) (i k : ℕ) (en : Vec3) (hl : l ∉ st.assigned)
    (hv : alookup st.vin (V.getD l default) = some (i, en))
    (hdot : dot3 (N.getD l (0, 0, 0)) en < -(9 / 10 : ℚ))
    (hiv : alookup st.ivi (V.getD l default) = some k) :
    processLoop V N st l = { st with assigned := l :: st.assigned, lvi := st.lvi.set l k } := by
  unfold processLoop
  rw [if_neg hl]
  dsimp only
  rw [hv]
  dsimp only
  rw [if_pos hdot]
  rw [hiv]

/-- The invariant is preserved by one `processLoop` step. -/
theorem processLoop_inv (V : List VertexRow) (N : List Vec3) (L : ℕ) (st : MergeState)
    (h : MergeInv V L st) (l : ℕ) : MergeInv V L (processLoop V N st l) := by
  by_cases hl : l ∈ st.assigned
  · rw [processLoop_assigned_eq V N st l hl]; exact h
  cases hv : alookup st.vin (V.getD l default) with
  | none =>
    rw [processLoop_miss V N st l hl hv]
    refine ⟨?_, ?_, ?_, ?_, ?_, ?_, ?_⟩
    · simp [List.length_append, h.len_red]
    · simp [h.lvi_len]
    · intro p hp
      rcases List.mem_cons.1 hp with rfl | hmem
      · exact ⟨Nat.lt_succ_self _, by
          rw [← h.len_red, getD_append_last_nat]⟩
      · obtain ⟨hlt, hkey⟩ := h.prim p hmem
        exact ⟨Nat.lt_succ_of_lt hlt, by
          rw [getD_append_left_nat _ _ _ (by rw [h.len_red]; exact hlt)]
          exact hkey⟩
    · intro p hp
      obtain ⟨hlt, hkey⟩ := h.sec p hp
      exact ⟨Nat.lt_succ_of_lt hlt, by
        rw [getD_append_left_nat _ _ _ (by rw [h.len_red]; exact hlt)]
        exact hkey⟩
    · intro r
      dsimp only
      rw [count_map_append_single, h.key_count r, alookup_cons]
      by_cases htr : V.getD l default = r
      · subst htr
        rw [hv]
        simp
        omega
      · rw [if_neg htr, if_neg htr]
        omega
    · intro l' hl' hlt
      rcases List.mem_cons.1 hl' with rfl | hmem
      · rw [getD_set_self_nat _ _ _ (by rw [h.lvi_len]; exact hlt)]
        exact Nat.lt_succ_self _
      · have hne : l ≠ l' := fun he => hl (he ▸ hmem)
        rw [getD_set_ne_nat _ _ _ _ hne]
        exact Nat.lt_succ_of_lt (h.assigned_lt l' hmem hlt)
    · intro l' hl' hlt
      rcases List.mem_cons.1 hl' with rfl | hmem
      · rw [getD_set_self_nat _ _ _ (by rw [h.lvi_len]; exact hlt), ← h.len_red,
          getD_append_last_nat]
      · have hne : l ≠ l' := fun he => hl (he ▸ hmem)
        rw [getD_set_ne_nat _ _ _ _ hne]
        have hlt2 := h.assigned_lt l' hmem hlt
        rw [getD_append_left_nat _ _ _ (by rw [h.len_red]; exact hlt2)]
        exact h.assigned_key l' hmem hlt
  | some p =>
    obtain ⟨i, en⟩ := p
    by_cases hdot : dot3 (N.getD l (0, 0, 0)) en < -(9 / 10 : ℚ)
    · cases hiv : alookup st.ivi (V.getD l default) with
      | none =>
        rw [processLoop_inverted_miss V N st l i en hl hv hdot hiv]
        refine ⟨?_, ?_, ?_, ?_, ?_, ?_, ?_⟩
        · simp [List.length_append, h.len_red]
        · simp [h.lvi_len]
        · intro p hp
          obtain ⟨hlt, hkey⟩ := h.prim p hp
          exact ⟨Nat.lt_succ_of_lt hlt, by
            rw [getD_append_left_nat _ _ _ (by rw [h.len_red]; exact hlt)]
            exact hkey⟩
        · intro p hp
          rcases List.mem_cons.1 hp with rfl | hmem
          · exact ⟨Nat.lt_succ_self _, by
              rw [← h.len_red, getD_append_last_nat]⟩
          · obtain ⟨hlt, hkey⟩ := h.sec p hmem
            exact ⟨Nat.lt_succ_of_lt hlt, by
              rw [getD_append_left_nat _ _ _ (by rw [h.len_red]; exact hlt)]
              exact hkey⟩
        · intro r
          dsimp only
          rw [count_map_append_single, h.key_count r, alookup_cons]
          by_cases htr : V.getD l default = r
          · subst htr
            rw [hv, hiv]
            simp
          · rw [if_neg htr, if_neg htr]
            omega
        · intro l' hl' hlt
          rcases List.mem_cons.1 hl' with rfl | hmem
          · rw [getD_set_self_nat _ _ _ (by rw [h.lvi_len]; exact hlt)]
            exact Nat.lt_succ_self _
          · have hne : l ≠ l' := fun he => hl (he ▸ hmem)
            rw [getD_set_ne_nat _ _ _ _ hne]
            exact Nat.lt_succ_of_lt (h.assigned_lt l' hmem hlt)
        · intro l' hl' hlt
          rcases List.mem_cons.1 hl' with rfl | hmem
          · rw [getD_set_self_nat _ _ _ (by rw [h.lvi_len]; exact hlt), ← h.len_red,
              getD_append_last_nat]
          · have hne : l ≠ l' := fun he => hl (he ▸ hmem)
            rw [getD_set_ne_nat _ _ _ _ hne]
            have hlt2 := h.assigned_lt l' hmem hlt
            rw [getD_append_left_nat _ _ _ (by rw [h.len_red]; exact hlt2)]
            exact h.assigned_key l' hmem hlt
      | some k =>
        rw [processLoop_inverted_hit V N st l i k en hl hv hdot hiv]
        have hkmem := alookup_mem _ _ _ hiv
        obtain ⟨hklt, hkkey⟩ := h.sec _ hkmem
        refine ⟨h.len_red, by simp [h.lvi_len], h.prim, h.sec, h.key_count, ?_, ?_⟩
        · intro l' hl' hlt
          rcases List.mem_cons.1 hl' with rfl | hmem
          · rw [getD_set_self_nat _ _ _ (by rw [h.lvi_len]; exact hlt)]
            exact hklt
          · have hne : l ≠ l' := fun he => hl (he ▸ hmem)
            rw [getD_set_ne_nat _ _ _ _ hne]
            exact h.assigned_lt l' hmem hlt
        · intro l' hl' hlt
          rcases List.mem_cons.1 hl' with rfl | hmem
          · rw [getD_set_self_nat _ _ _ (by rw [h.lvi_len]; exact hlt)]
            exact hkkey
          · have hne : l ≠ l' := fun he => hl (he ▸ hmem)
            rw [getD_set_ne_nat _ _ _ _ hne]
            exact h.assigned_key l' hmem hlt
    · rw [processLoop_hit_close V N st l i en hl hv hdot]
      have himem := alookup_mem _ _ _ hv
      obtain ⟨hilt, hikey⟩ := h.prim _ himem
      refine ⟨h.len_red, by simp [h.lvi_len], h.prim, h.sec, h.key_count, ?_, ?_⟩
      · intro l' hl' hlt
        rcases List.mem_cons.1 hl' with rfl | hmem
        · rw [getD_set_self_nat _ _ _ (by rw [h.lvi_len]; exact hlt)]
          exact hilt
        · have hne : l ≠ l' := fun he => hl (he ▸ hmem)
          rw [getD_set_ne_nat _ _ _ _ hne]
          exact h.assigned_lt l' hmem hlt
      · intro l' hl' hlt
        rcases List.mem_cons.1 hl' with rfl | hmem
        · rw [getD_set_self_nat _ _ _ (by rw [h.lvi_len]; exact hlt)]
          exact hikey
        · have hne : l ≠ l' := fun he => hl (he ▸ hmem)
          rw [getD_set_ne_nat _ _ _ _ hne]
          exact h.assigned_key l' hmem hlt

/-- The invariant holds of the folded state over any loop sequence. -/
theorem foldl_processLoop_inv (V : List VertexRow) (N : List Vec3) (L : ℕ)
    (seq : List ℕ) (st : MergeState) (h : MergeInv V L st) :
    MergeInv V L (seq.foldl (processLoop V N) st) := by
  induction seq generalizing st with
  | nil => exact h
  | cons x rest ih => exact ih _ (processLoop_inv V N L st h x)

/-- `processLoop` never removes assigned loops, and always assigns its own. -/
theorem processLoop_assigned_sub (V : List VertexRow) (N : List Vec3) (st : MergeState)
    (l : ℕ) :
    st.assigned ⊆ (processLoop V N st l).assigned ∧ l ∈ (processLoop V N st l).assigned := by
  by_cases hl : l ∈ st.assigned
  · rw [processLoop_assigned_eq V N st l hl]
    exact ⟨fun _ hx => hx, hl⟩
  cases hv : alookup st.vin (V.getD l default) with
  | none =>
    rw [processLoop_miss V N st l hl hv]
    exact ⟨fun x hx => List.mem_cons_of_mem _ hx, List.mem_cons_self _ _⟩
  | some p =>
    obtain ⟨i, en⟩ := p
    by_cases hdot : dot3 (N.getD l (0, 0, 0)) en < -(9 / 10 : ℚ)
    · cases hiv : alookup st.ivi (V.getD l default) with
      | none =>
        rw [processLoop_inverted_miss V N st l i en hl hv hdot hiv]
        exact ⟨fun x hx => List.mem_cons_of_mem _ hx, List.mem_cons_self _ _⟩
      | some k =>
        rw [processLoop_inverted_hit V N st l i k en hl hv hdot hiv]
        exact ⟨fun x hx => List.mem_cons_of_mem _ hx, List.mem_cons_self _ _⟩
    · rw [processLoop_hit_close V N st l i en hl hv hdot]
      exact ⟨fun x hx => List.mem_cons_of_mem _ hx, List.mem_cons_self _ _⟩

/-- After folding a loop sequence, every loop of the sequence is assigned. -/
theorem foldl_processLoop_assigned (V : List VertexRow) (N : List Vec3)
    (seq : List ℕ) (st : MergeState) (l : ℕ) (h : l ∈ seq ∨ l ∈ st.assigned) :
    l ∈ (seq.foldl (processLoop V N) st).assigned := by
  induction seq generalizing st with
  | nil => exact h.resolve_left (fun hx => by cases hx)
  | cons x rest ih =>
    rcases h with hseq | hst
    · rcases List.mem_cons.1 hseq with rfl | hmem
      · exact ih _ (Or.inr (processLoop_assigned_sub V N st l).2)
      · exact ih _ (Or.inl hmem)
    · exact ih _ (Or.inr ((processLoop_assigned_sub V N st x).1 hst))

/-- The initial state satisfies the invariant. -/
theorem mergeInv_initial (V : List VertexRow) (init : List ℕ) :
    MergeInv V init.length ⟨[], [], [], 0, init, []⟩ := by
  refine ⟨rfl, rfl, ?_, ?_, ?_, ?_, ?_⟩
  · intro p hp; cases hp
  · intro p hp; cases hp
  · intro r; rfl
  · intro l hl; cases hl
  · intro l hl; cases hl

/-- **C2** (confirmed).  For every input to `merge_vertices` and every raw
key, the resulting `vertex_data` contains at most two rows equal to that key
(a `vertex_data` row consists exactly of the raw-key fields position,
bone_weights, bone_indices). -/
theorem claimC2_at_most_two_vertex_variants (submeshes : List Submesh)
    (all_vertices : List VertexRow) (mats : List ℕ) (loop_normals : List Vec3)
    (init_lvi : List ℕ) (r : VertexRow) :
    ((merge_vertices submeshes all_vertices mats loop_normals init_lvi).1).count r ≤ 2 := by
  have hinv := foldl_processLoop_inv all_vertices loop_normals init_lvi.length
    (allLoopSeq 0 submeshes) ⟨[], [], [], 0, init_lvi, []⟩
    (mergeInv_initial all_vertices init_lvi)
  unfold merge_vertices
  dsimp only
  rw [hinv.key_count r]
  split_ifs <;> omega

/-- **C3** (confirmed).  The dot-product tie-break of the vertex reducer:
on a primary-table hit, dot ≥ −0.9 reuses the stored vertex index with no
change to the vertex count; dot < −0.9 consults the secondary table, where a
miss creates a new vertex and a hit reuses the secondary index with no
further normal comparison.  Concretely: raw-key-sharing loops with normals
(0,1,0) and (0,0.99,−0.14) merge to one vertex; (0,1,0) and (0,−1,0) produce
exactly two; a third loop with normal (0,−0.95,0.31) reuses the inverted
vertex rather than creating a third. -/
theorem claimC3_dot_product_tie_break :
    (∀ (V : List VertexRow) (N : List Vec3) (st : MergeState) (l i : ℕ) (en : Vec3),
      l ∉ st.assigned → alookup st.vin (V.getD l default) = some (i, en) →
      -(9 / 10 : ℚ) ≤ dot3 (N.getD l (0, 0, 0)) en →
      (processLoop V N st l).lvi = st.lvi.set l i ∧
        (processLoop V N st l).count = st.count) ∧
    (∀ (V : List VertexRow) (N : List Vec3) (st : MergeState) (l i : ℕ) (en : Vec3),
      l ∉ st.assigned → alookup st.vin (V.getD l default) = some (i, en) →
      dot3 (N.getD l (0, 0, 0)) en < -(9 / 10 : ℚ) →
      alookup st.ivi (V.getD l default) = none →
      (processLoop V N st l).lvi = st.lvi.set l st.count ∧
        (processLoop V N st l).count = st.count + 1) ∧
    (∀ (V : List VertexRow) (N : List Vec3) (st : MergeState) (l i k : ℕ) (en : Vec3),
      l ∉ st.assigned → alookup st.vin (V.getD l default) = some (i, en) →
      dot3 (N.getD l (0, 0, 0)) en < -(9 / 10 : ℚ) →
      alookup st.ivi (V.getD l default) = some k →
      (processLoop V N st l).lvi = st.lvi.set l k ∧
        (processLoop V N st l).count = st.count) ∧
    ((c3MergeA.1.length = 1 ∧ c3MergeA.2.1 = [0, 0]) ∧
      (c3MergeB.1.length = 2 ∧ c3MergeB.2.1 = [0, 1]) ∧
      (c3MergeC.1.length = 2 ∧ c3MergeC.2.1 = [0, 1, 1])) := by
  refine ⟨?_, ?_, ?_, ?_⟩
  · intro V N st l i en h1 h2 h3
    rw [processLoop_hit_close V N st l i en h1 h2 (not_lt.2 h3)]
    exact ⟨rfl, rfl⟩
  · intro V N st l i en h1 h2 h3 h4
    rw [processLoop_inverted_miss V N st l i en h1 h2 h3 h4]
    exact ⟨rfl, rfl⟩
  · intro V N st l i k en h1 h2 h3 h4
    rw [processLoop_inverted_hit V N st l i k en h1 h2 h3 h4]
    exact ⟨rfl, rfl⟩
  · refine ⟨⟨?_, ?_⟩, ⟨?_, ?_⟩, ⟨?_, ?_⟩⟩ <;>
      norm_num [c3MergeA, c3MergeB, c3MergeC, merge_vertices, allLoopSeq, submeshLoopSeq,
        triSub, firstFaceSetTriangles, triLoops, processLoop, alookup, dot3, List.foldl,
        c3Vertex, List.flatMap]

/-- **C3 witness**: the three tie-break branches applied at concrete states
sharing the raw key `c3Vertex`. -/
theorem claimC3_witness :
    ((processLoop [c3Vertex, c3Vertex] [(0, 1, 0), (0, 99/100, -(14/100))]
        ⟨[(c3Vertex, 0, (0, 1, 0))], [], [0], 1, [5, 5], []⟩ 1).lvi = [5, 5].set 1 0 ∧
      (processLoop [c3Vertex, c3Vertex] [(0, 1, 0), (0, 99/100, -(14/100))]
        ⟨[(c3Vertex, 0, (0, 1, 0))], [], [0], 1, [5, 5], []⟩ 1).count = 1) ∧
    ((processLoop [c3Vertex, c3Vertex] [(0, 1, 0), (0, -1, 0)]
        ⟨[(c3Vertex, 0, (0, 1, 0))], [], [0], 1, [5, 5], []⟩ 1).lvi = [5, 5].set 1 1 ∧
      (processLoop [c3Vertex, c3Vertex] [(0, 1, 0), (0, -1, 0)]
        ⟨[(c3Vertex, 0, (0, 1, 0))], [], [0], 1, [5, 5], []⟩ 1).count = 2) ∧
    ((processLoop [c3Vertex, c3Vertex, c3Vertex]
        [(0, 1, 0), (0, -1, 0), (0, -(19/20), 31/100)]
        ⟨[(c3Vertex, 0, (0, 1, 0))], [(c3Vertex, 1)], [0, 1], 2, [5, 5, 5], []⟩ 2).lvi
          = [5, 5, 5].set 2 1 ∧
      (processLoop [c3Vertex, c3Vertex, c3Vertex]
        [(0, 1, 0), (0, -1, 0), (0, -(19/20), 31/100)]
        ⟨[(c3Vertex, 0, (0, 1, 0))], [(c3Vertex, 1)], [0, 1], 2, [5, 5, 5], []⟩ 2).count = 2) :=
  ⟨claimC3_dot_product_tie_break.1 _ _ _ 1 0 (0, 1, 0) (by decide) (by decide)
     (by norm_num [dot3]),
   claimC3_dot_product_tie_break.2.1 _ _ _ 1 0 (0, 1, 0) (by decide) (by decide)
     (by norm_num [dot3]) (by decide),
   claimC3_dot_product_tie_break.2.2.1 _ _ _ 2 0 1 (0, 1, 0) (by decide) (by decide)
     (by norm_num [dot3]) (by decide)⟩

/-- **C6 counterexample**: `from_flver` on a submesh whose fourth vertex is
referenced by no triangle of the first face set leaves that loop's
`loop_vertex_indices` entry as `np.empty` garbage (here `7`), which is not a
valid index into the single-row `vertex_data` — refuting the claim as
stated. -/
theorem claimC6_counterexample :
    from_flver c6Flver (fun _ => 7) none = .ok c6Mesh ∧
    ¬ (∀ v ∈ c6Mesh.loop_vertex_indices, v < c6Mesh.vertex_data.length) := by
  exact ⟨rfl, by decide⟩

/-- **C6** (corrected).  For every `MergedMesh` produced by `from_flver`,
every `loop_vertex_indices` entry *at a loop index that some triangle of its
submesh's first face set references* is a valid index into `vertex_data`;
entries for unreferenced loops are uninitialized `np.empty` memory and may be
arbitrary (see the counterexample). -/
theorem claimC6_amended_loop_indices_valid (flver : FLVER) (g : ℕ → ℕ)
    (mats : Option (List ℕ)) (mm : MergedMesh)
    (h : from_flver flver g mats = .ok mm) (l : ℕ)
    (hl : l ∈ allLoopSeq 0 flver.submeshes)
    (hbound : l < mm.loop_vertex_indices.length) :
    mm.loop_vertex_indices.getD l 0 < mm.vertex_data.length := by
  unfold from_flver at h
  by_cases hsub : flver.submeshes = []
  · rw [if_pos hsub] at h; cases h
  rw [if_neg hsub] at h
  dsimp only at h
  obtain rfl : _ = mm := Except.ok.inj h
  dsimp only at hbound ⊢
  unfold merge_vertices at hbound ⊢
  dsimp only at hbound ⊢
  have hinv := foldl_processLoop_inv
    ((build_stacked_loops flver.submeshes).map (fun r => r.vertex))
    ((build_stacked_loops flver.submeshes).map (fun r => r.normal))
    ((List.range (build_stacked_loops flver.submeshes).length).map g).length
    (allLoopSeq 0 flver.submeshes)
    ⟨[], [], [], 0, (List.range (build_stacked_loops flver.submeshes).length).map g, []⟩
    (mergeInv_initial _ _)
  have hassigned := foldl_processLoop_assigned
    ((build_stacked_loops flver.submeshes).map (fun r => r.vertex))
    ((build_stacked_loops flver.submeshes).map (fun r => r.normal))
    (allLoopSeq 0 flver.submeshes)
    ⟨[], [], [], 0, (List.range (build_stacked_loops flver.submeshes).length).map g, []⟩
    l (Or.inl hl)
  rw [List.length_map, hinv.len_red]
  exact hinv.assigned_lt l hassigned (by rw [← hinv.lvi_len]; exact hbound)

/-- **C6 witness** for the amended theorem: loop `0` of the counterexample
mesh is referenced by its triangle, and its entry `0` is indeed valid. -/
theorem claimC6_witness :
    c6Mesh.loop_vertex_indices.getD 0 0 < c6Mesh.vertex_data.length :=
  claimC6_amended_loop_indices_valid c6Flver (fun _ => 7) none c6Mesh rfl 0
    (by decide) (by decide)

/-! ## Supporting lemmas: the subsplit walk -/

theorem getD_append_left' {α : Type} (l₁ l₂ : List α) (d : α) (i : ℕ) (h : i < l₁.length) :
    (l₁ ++ l₂).getD i d = l₁.getD i d := by
  rw [List.getD_eq_getElem?_getD, List.getElem?_append_left h, ← List.getD_eq_getElem?_getD]

theorem getD_append_last' {α : Type} (l : List α) (x : α) (d : α) :
    (l ++ [x]).getD l.length d = x := by
  rw [List.getD_eq_getElem?_getD, List.getElem?_append_right (le_refl l.length)]
  simp

theorem SegU_self (F : List (List ℤ)) (b : ℕ) : SegU F b b = {-1} := by
  simp [SegU]

theorem neg_one_mem_SegU (F : List (List ℤ)) (b e : ℕ) : (-1 : ℤ) ∈ SegU F b e :=
  Finset.mem_insert_self _ _

theorem SegU_succ (F : List (List ℤ)) (b e : ℕ) (hbe : b ≤ e) (he : e < F.length) :
    SegU F b (e + 1) = SegU F b e ∪ (F.getD e []).toFinset := by
  unfold SegU
  have h1 : (F.drop b).take (e + 1 - b) = (F.drop b).take (e - b) ++ [F.getD e []] := by
    rw [show e + 1 - b = (e - b) + 1 by omega, List.take_succ]
    congr 1
    rw [List.getElem?_drop, show b + (e - b) = e by omega,
      List.getElem?_eq_getElem he, List.getD_eq_getElem F [] he]
    rfl
  rw [h1, List.foldl_append]
  simp [Finset.insert_union]

/-- Invariant of the subsplit walk after processing faces `0..i-1`. -/
structure SubsplitInv (F : List (List ℤ)) (maxB : ℕ) (i : ℕ)
    (st : List ℕ × List (Finset ℤ) × Finset ℤ) : Prop where
  ne : st.1 ≠ []
  head0 : st.1.headD 0 = 0
  len : st.1.length = st.2.1.length + 1
  bound_le : ∀ j, j < st.1.length → st.1.getD j 0 ≤ i
  mono : ∀ j, j + 1 < st.1.length → st.1.getD j 0 ≤ st.1.getD (j + 1) 0
  bnd_lt : ∀ j, j + 1 < st.1.length → st.1.getD (j + 1) 0 < i
  cur_eq : st.2.2 = SegU F (st.1.getD (st.1.length - 1) 0) i
  sets_eq : ∀ j, j + 1 < st.1.length →
    st.2.1.getD j ∅ = SegU F (st.1.getD j 0) (st.1.getD (j + 1) 0)
  over : ∀ j, j + 1 < st.1.length →
    maxB < (SegU F (st.1.getD j 0) (st.1.getD (j + 1) 0)
      ∪ (F.getD (st.1.getD (j + 1) 0) []).toFinset).card

theorem getD_append_cases {α : Type} (l : List α) (x d : α) (j : ℕ) :
    (l ++ [x]).getD j d = if j < l.length then l.getD j d else if j = l.length then x else d := by
  by_cases h : j < l.length
  · rw [if_pos h]
    exact getD_append_left' l [x] d j h
  · rw [if_neg h]
    by_cases he : j = l.length
    · rw [if_pos he, he]
      exact getD_append_last' l x d
    · rw [if_neg he, List.getD_eq_getElem?_getD, List.getElem?_append_right (by omega),
        List.getElem?_eq_none (by simp; omega)]
      rfl

theorem subsplitInv_initial (F : List (List ℤ)) (maxB : ℕ) :
    SubsplitInv F maxB 0 ([0], [], ({-1} : Finset ℤ)) := by
  refine ⟨by simp, rfl, rfl, ?_, ?_, ?_, ?_, ?_, ?_⟩
  · intro j hj
    simp only [List.length_singleton] at hj
    have hj0 : j = 0 := by omega
    subst hj0
    simp
  · intro j hj; simp at hj
  · intro j hj; simp at hj
  · simp [SegU_self]
  · intro j hj; simp at hj
  · intro j hj; simp at hj

theorem subsplitStep_inv (F : List (List ℤ)) (maxB i : ℕ)
    (st : List ℕ × List (Finset ℤ) × Finset ℤ) (f : List ℤ)
    (hf : F.getD i [] = f) (hi : i < F.length) (h : SubsplitInv F maxB i st) :
    SubsplitInv F maxB (i + 1) (subsplitStep maxB st (i, f)) := by
  obtain ⟨bnds, sets, cur⟩ := st
  have hbne : 0 < bnds.length := by
    cases hb : bnds with
    | nil => exact absurd hb h.ne
    | cons a t => simp
  have hlast_le : bnds.getD (bnds.length - 1) 0 ≤ i :=
    h.bound_le (bnds.length - 1) (by dsimp only; omega)
  have hlen : bnds.length = sets.length + 1 := h.len
  have hcur : cur = SegU F (bnds.getD (bnds.length - 1) 0) i := h.cur_eq
  unfold subsplitStep
  dsimp only at h ⊢
  by_cases hover : maxB < (cur ∪ f.toFinset).card
  · rw [if_pos hover]
    refine ⟨by simp, ?_, by simp [hlen], ?_, ?_, ?_, ?_, ?_, ?_⟩
    · cases hb : bnds with
      | nil => exact absurd hb h.ne
      | cons a t => simpa [hb] using h.head0
    · intro j hj
      simp only [List.length_append, List.length_singleton] at hj
      rw [getD_append_cases]
      by_cases hc : j < bnds.length
      · rw [if_pos hc]
        exact le_trans (h.bound_le j hc) (Nat.le_succ i)
      · rw [if_neg hc, if_pos (show j = bnds.length by omega)]
        exact Nat.le_succ i
    · intro j hj
      simp only [List.length_append, List.length_singleton] at hj
      rw [getD_append_cases, getD_append_cases, if_pos (show j < bnds.length by omega)]
      by_cases hc : j + 1 < bnds.length
      · rw [if_pos hc]
        exact h.mono j hc
      · rw [if_neg hc, if_pos (show j + 1 = bnds.length by omega)]
        exact h.bound_le j (by dsimp only; omega)
    · intro j hj
      simp only [List.length_append, List.length_singleton] at hj
      rw [getD_append_cases]
      by_cases hc : j + 1 < bnds.length
      · rw [if_pos hc]
        exact Nat.lt_succ_of_lt (h.bnd_lt j hc)
      · rw [if_neg hc, if_pos (show j + 1 = bnds.length by omega)]
        exact Nat.lt_succ_self i
    · rw [show (bnds ++ [i]).length - 1 = bnds.length by simp, getD_append_last',
        SegU_succ F i i (le_refl i) hi, SegU_self, hf, Finset.insert_eq]
    · intro j hj
      simp only [List.length_append, List.length_singleton] at hj
      rw [getD_append_cases, getD_append_cases, getD_append_cases,
        if_pos (show j < bnds.length by omega)]
      by_cases hc : j + 1 < bnds.length
      · rw [if_pos (show j < sets.length by omega), if_pos hc]
        exact h.sets_eq j hc
      · rw [if_neg (show ¬ j < sets.length by omega),
          if_pos (show j = sets.length by omega), if_neg hc,
          if_pos (show j + 1 = bnds.length by omega)]
        rw [hcur, show bnds.length - 1 = j by omega]
    · intro j hj
      simp only [List.length_append, List.length_singleton] at hj
      rw [getD_append_cases, getD_append_cases, if_pos (show j < bnds.length by omega)]
      by_cases hc : j + 1 < bnds.length
      · rw [if_pos hc]
        exact h.over j hc
      · rw [if_neg hc, if_pos (show j + 1 = bnds.length by omega)]
        rw [show j = bnds.length - 1 by omega, ← hcur, hf]
        exact hover
  · rw [if_neg hover]
    refine ⟨h.ne, h.head0, h.len, ?_, h.mono, ?_, ?_, h.sets_eq, h.over⟩
    · intro j hj
      exact le_trans (h.bound_le j hj) (Nat.le_succ i)
    · intro j hj
      exact Nat.lt_succ_of_lt (h.bnd_lt j hj)
    · dsimp only
      rw [hcur, ← hf]
      exact (SegU_succ F _ i hlast_le hi).symm

theorem subsplitFold_aux (F : List (List ℤ)) (maxB : ℕ) :
    ∀ (suffix : List (List ℤ)) (i : ℕ) (st : List ℕ × List (Finset ℤ) × Finset ℤ),
      F.drop i = suffix → SubsplitInv F maxB i st →
      SubsplitInv F maxB (i + suffix.length)
        ((List.enumFrom i suffix).foldl (subsplitStep maxB) st) := by
  intro suffix
  induction suffix with
  | nil =>
    intro i st _ h
    simpa using h
  | cons f rest ih =>
    intro i st hdrop h
    have hi : i < F.length := by
      by_contra hle
      rw [List.drop_eq_nil_of_le (by omega)] at hdrop
      cases hdrop
    have hf : F.getD i [] = f := by
      have h0 : (F.drop i)[0]? = some f := by rw [hdrop]; simp
      rw [List.getElem?_drop, Nat.add_zero] at h0
      rw [List.getD_eq_getElem?_getD, h0]
      rfl
    have hrest : F.drop (i + 1) = rest := by
      rw [← List.tail_drop, hdrop]
      simp
    rw [List.enumFrom_cons, List.foldl_cons]
    have hstep := ih (i + 1) (subsplitStep maxB st (i, f)) hrest
      (subsplitStep_inv F maxB i st f hf hi h)
    simp only [List.length_cons]
    rw [show i + (rest.length + 1) = (i + 1) + rest.length by omega]
    exact hstep

/-- The subsplit walk's final state satisfies the invariant at `F.length`. -/
theorem subsplitFold_inv (F : List (List ℤ)) (maxB : ℕ) :
    SubsplitInv F maxB F.length (subsplitFold maxB F.enum) := by
  have := subsplitFold_aux F maxB F 0 ([0], [], ({-1} : Finset ℤ)) (by simp)
    (subsplitInv_initial F maxB)
  simpa [subsplitFold, List.enum] using this

theorem snd_mem_of_mem_enumFrom {α : Type} (l : List α) :
    ∀ (n : ℕ) (p : ℕ × α), p ∈ List.enumFrom n l → p.2 ∈ l := by
  induction l with
  | nil => intro n p hp; cases hp
  | cons x t ih =>
    intro n p hp
    rw [List.enumFrom_cons] at hp
    rcases List.mem_cons.1 hp with rfl | hmem
    · exact List.mem_cons_self _ _
    · exact List.mem_cons_of_mem _ (ih (n + 1) p hmem)

/-- Card bound: when every face fits the limit on its own, every recorded
set and the running set stay within `maxB`. -/
theorem subsplitFold_card_aux (maxB : ℕ) :
    ∀ (rows : List (ℕ × List ℤ)) (st : List ℕ × List (Finset ℤ) × Finset ℤ),
      (∀ p ∈ rows, (insert (-1 : ℤ) p.2.toFinset).card ≤ maxB) →
      (∀ s ∈ st.2.1, s.card ≤ maxB) → st.2.2.card ≤ maxB →
      (∀ s ∈ (rows.foldl (subsplitStep maxB) st).2.1, s.card ≤ maxB) ∧
        (rows.foldl (subsplitStep maxB) st).2.2.card ≤ maxB := by
  intro rows
  induction rows with
  | nil => intro st _ h1 h2; exact ⟨h1, h2⟩
  | cons p rest ih =>
    intro st hH h1 h2
    rw [List.foldl_cons]
    refine ih _ (fun q hq => hH q (List.mem_cons_of_mem _ hq)) ?_ ?_
    · intro s hs
      unfold subsplitStep at hs
      by_cases hover : maxB < (st.2.2 ∪ p.2.toFinset).card
      · rw [if_pos hover] at hs
        dsimp only at hs
        rcases List.mem_append.1 hs with hmem | hmem
        · exact h1 s hmem
        · rw [List.mem_singleton.1 hmem]
          exact h2
      · rw [if_neg hover] at hs
        exact h1 s hs
    · unfold subsplitStep
      by_cases hover : maxB < (st.2.2 ∪ p.2.toFinset).card
      · rw [if_pos hover]
        exact hH p (List.mem_cons_self _ _)
      · rw [if_neg hover]
        exact le_of_not_lt hover

theorem length_flatMap_ivec4 (l : List IVec4) :
    (l.flatMap ivec4ToList).length = 4 * l.length := by
  induction l with
  | nil => rfl
  | cons x t ih => simp [List.flatMap_cons, ivec4ToList, ih]; omega

theorem boneRowsOf_length (loops : List LoopRow) (ibp un : Bool) :
    (boneRowsOf loops ibp un).length = loops.length := by
  unfold boneRowsOf
  split <;> simp

/-- `len(flat) // 12 = len(loops) // 3`: the face count of the reshaped bone
array equals the triangle count. -/
theorem faceBoneLists_length (loops : List LoopRow) (ibp un : Bool) :
    (faceBoneLists loops ibp un).length = loops.length / 3 := by
  unfold faceBoneLists chunkList
  rw [List.length_map, List.length_range, length_flatMap_ivec4, boneRowsOf_length,
    show (12 : ℕ) = 4 * 3 from rfl, Nat.mul_div_mul_left _ _ (by omega)]

/-- Each entry of `subsplitBoneSets` is exactly the distinct-bone set
(sentinel included) of the faces of its boundary segment. -/
theorem subsplit_segment_sets (loops : List LoopRow) (ibp : Bool) (max_bones_per_submesh : ℕ)
    (un : Bool) :
    ∀ j, j + 1 < (subsplitBoundaries loops ibp max_bones_per_submesh un).length →
      (subsplitBoneSets loops ibp max_bones_per_submesh un).getD j ∅ =
        SegU (faceBoneLists loops ibp un)
          ((subsplitBoundaries loops ibp max_bones_per_submesh un).getD j 0)
          ((subsplitBoundaries loops ibp max_bones_per_submesh un).getD (j + 1) 0) := by
  intro j hj
  set F := faceBoneLists loops ibp un with hF
  set res := subsplitFold (max_bones_per_submesh + 1) F.enum with hres
  have inv := subsplitFold_inv F (max_bones_per_submesh + 1)
  rw [← hres] at inv
  have hn : F.length = loops.length / 3 := faceBoneLists_length loops ibp un
  have hlen : res.1.length = res.2.1.length + 1 := inv.len
  unfold subsplitBoundaries at hj
  unfold subsplitBoundaries subsplitBoneSets
  rw [← hF, ← hres] at hj
  rw [← hF, ← hres]
  simp only [List.length_append, List.length_singleton] at hj
  rw [getD_append_cases, getD_append_cases, getD_append_cases]
  by_cases hc : j + 1 < res.1.length
  · rw [if_pos (show j < res.2.1.length by omega), if_pos (show j < res.1.length by omega),
      if_pos hc]
    exact inv.sets_eq j hc
  · rw [if_neg (show ¬ j < res.2.1.length by omega),
      if_pos (show j = res.2.1.length by omega),
      if_pos (show j < res.1.length by omega), if_neg hc,
      if_pos (show j + 1 = res.1.length by omega)]
    rw [inv.cur_eq, show res.1.length - 1 = j by omega, ← hn]

/-- Under the per-face fit hypothesis, every recorded bone set stays within
`max_bones_per_submesh + 1` distinct values (sentinel included). -/
theorem subsplit_segment_card (loops : List LoopRow) (ibp : Bool)
    (max_bones_per_submesh : ℕ) (un : Bool)
    (H : ∀ fb ∈ faceBoneLists loops ibp un,
      (insert (-1 : ℤ) fb.toFinset).card ≤ max_bones_per_submesh + 1) :
    ∀ s ∈ subsplitBoneSets loops ibp max_bones_per_submesh un,
      s.card ≤ max_bones_per_submesh + 1 := by
  set F := faceBoneLists loops ibp un with hF
  have hcard := subsplitFold_card_aux (max_bones_per_submesh + 1) F.enum
    ([0], [], ({-1} : Finset ℤ))
    (fun p hp => H p.2 (snd_mem_of_mem_enumFrom F 0 p hp))
    (by intro s hs; cases hs) (by simp)
  intro s hs
  unfold subsplitBoneSets at hs
  rw [← hF] at hs
  rcases List.mem_append.1 hs with hmem | hmem
  · exact hcard.1 s hmem
  · rw [List.mem_singleton.1 hmem]
    exact hcard.2

/-- **C4 counterexample**: with `max_bones_per_submesh = 4`, faces with bones
`{1,2,3}` then `{1,2,4}` make the cumulative distinct count (sentinel
included) reach exactly `4 + 1 = 5` on face 1, yet no subsplit boundary is
placed before face 1 — the walk splits only when the count would *exceed*
`max + 1`, refuting the claim as stated. -/
theorem claimC4_counterexample :
    (SegU (faceBoneLists c4Loops true true) 0 2).card = 4 + 1 ∧
    subsplitBoundaries c4Loops true 4 true = [0, 2] ∧
    (subsplit_faces 0 c4Loops true 4 true).length = 1 := by
  exact ⟨by decide, by decide, by decide⟩

/-- **C4** (corrected).  Boundary placement of the bone-limited subsplit:
the boundary list starts at 0, ends at the face count, and is monotone; an
interior boundary is placed immediately before face `N` exactly when adding
face `N`'s bones to the running subsplit would make the distinct count
(including the sentinel `-1`) *strictly exceed* `max_bones_per_submesh + 1`
(not on reaching exactly `max+1`, as claimed); and — provided every face fits
the limit on its own — no emitted segment ever exceeds `max + 1` distinct
values including the sentinel. -/
theorem claimC4_amended_boundary_on_overflow (loops : List LoopRow) (ibp : Bool)
    (max_bones_per_submesh : ℕ) (un : Bool) :
    (subsplitBoundaries loops ibp max_bones_per_submesh un).headD 0 = 0 ∧
    (subsplitBoundaries loops ibp max_bones_per_submesh un).getD
      ((subsplitBoundaries loops ibp max_bones_per_submesh un).length - 1) 0
        = (faceBoneLists loops ibp un).length ∧
    (∀ j, j + 1 < (subsplitBoundaries loops ibp max_bones_per_submesh un).length →
      (subsplitBoundaries loops ibp max_bones_per_submesh un).getD j 0
        ≤ (subsplitBoundaries loops ibp max_bones_per_submesh un).getD (j + 1) 0) ∧
    (∀ j, j + 2 ≤ (subsplitBoundaries loops ibp max_bones_per_submesh un).length - 1 →
      max_bones_per_submesh + 1 <
        (SegU (faceBoneLists loops ibp un)
            ((subsplitBoundaries loops ibp max_bones_per_submesh un).getD j 0)
            ((subsplitBoundaries loops ibp max_bones_per_submesh un).getD (j + 1) 0)
          ∪ ((faceBoneLists loops ibp un).getD
            ((subsplitBoundaries loops ibp max_bones_per_submesh un).getD (j + 1) 0)
            []).toFinset).card) ∧
    ((∀ fb ∈ faceBoneLists loops ibp un,
        (insert (-1 : ℤ) fb.toFinset).card ≤ max_bones_per_submesh + 1) →
      ∀ j, j + 1 < (subsplitBoundaries loops ibp max_bones_per_submesh un).length →
        (SegU (faceBoneLists loops ibp un)
            ((subsplitBoundaries loops ibp max_bones_per_submesh un).getD j 0)
            ((subsplitBoundaries loops ibp max_bones_per_submesh un).getD (j + 1) 0)).card
          ≤ max_bones_per_submesh + 1) := by
  set F := faceBoneLists loops ibp un with hF
  set res := subsplitFold (max_bones_per_submesh + 1) F.enum with hres
  have inv := subsplitFold_inv F (max_bones_per_submesh + 1)
  rw [← hres] at inv
  have hn : F.length = loops.length / 3 := faceBoneLists_length loops ibp un
  have hbne : 0 < res.1.length := by
    cases hb : res.1 with
    | nil => exact absurd hb inv.ne
    | cons a t => simp
  have hB : subsplitBoundaries loops ibp max_bones_per_submesh un
      = res.1 ++ [loops.length / 3] := by
    unfold subsplitBoundaries
    rw [← hF, ← hres]
  refine ⟨?_, ?_, ?_, ?_, ?_⟩
  · rw [hB]
    cases hb : res.1 with
    | nil => exact absurd hb inv.ne
    | cons a t => simpa [hb] using inv.head0
  · rw [hB]
    simp only [List.length_append, List.length_singleton, Nat.add_sub_cancel]
    rw [getD_append_last', hn]
  · intro j hj
    rw [hB] at hj ⊢
    simp only [List.length_append, List.length_singleton] at hj
    rw [getD_append_cases, getD_append_cases, if_pos (show j < res.1.length by omega)]
    by_cases hc : j + 1 < res.1.length
    · rw [if_pos hc]
      exact inv.mono j hc
    · rw [if_neg hc, if_pos (show j + 1 = res.1.length by omega)]
      rw [← hn]
      exact inv.bound_le j (by omega)
  · intro j hj
    rw [hB] at hj ⊢
    simp only [List.length_append, List.length_singleton, Nat.add_sub_cancel] at hj
    have hc : j + 1 < res.1.length := by omega
    rw [getD_append_cases, getD_append_cases, if_pos (show j < res.1.length by omega),
      if_pos hc]
    exact inv.over j hc
  · intro H j hj
    have hsets := subsplit_segment_sets loops ibp max_bones_per_submesh un j hj
    rw [← hF] at hsets
    rw [← hsets]
    refine subsplit_segment_card loops ibp max_bones_per_submesh un
      (by rw [← hF]; exact H) _ ?_
    have hjlen : j < (subsplitBoneSets loops ibp max_bones_per_submesh un).length := by
      unfold subsplitBoundaries at hj
      unfold subsplitBoneSets
      rw [← hF, ← hres] at hj ⊢
      simp only [List.length_append, List.length_singleton] at hj ⊢
      have := inv.len
      omega
    rw [List.getD_eq_getElem _ _ hjlen]
    exact List.getElem_mem hjlen

/-- **C4 witness** (for the conditional part): the corrected boundary theorem
applied to the counterexample input, whose faces all fit the limit. -/
theorem claimC4_witness :
    (SegU (faceBoneLists c4Loops true true)
        ((subsplitBoundaries c4Loops true 4 true).getD 0 0)
        ((subsplitBoundaries c4Loops true 4 true).getD 1 0)).card ≤ 4 + 1 :=
  (claimC4_amended_boundary_on_overflow c4Loops true 4 true).2.2.2.2 (by decide) 0 (by decide)

/-- The emitted subsplit count is the boundary-pair count. -/
theorem subsplit_faces_length (mi : ℕ) (loops : List LoopRow) (ibp : Bool)
    (max_bones_per_submesh : ℕ) (un : Bool) :
    (subsplit_faces mi loops ibp max_bones_per_submesh un).length
      = (subsplitBoundaries loops ibp max_bones_per_submesh un).length - 1 := by
  unfold subsplit_faces
  simp

/-- The bone table of the `j`-th emitted subsplit is the sorted,
sentinel-stripped recorded bone set. -/
theorem subsplit_faces_getD_bones (mi : ℕ) (loops : List LoopRow) (ibp : Bool)
    (max_bones_per_submesh : ℕ) (un : Bool) (j : ℕ)
    (hj : j < (subsplitBoundaries loops ibp max_bones_per_submesh un).length - 1) :
    ((subsplit_faces mi loops ibp max_bones_per_submesh un).getD j default).2.2
      = (((subsplitBoneSets loops ibp max_bones_per_submesh un).getD j ∅).erase (-1)).sort
        (· ≤ ·) := by
  unfold subsplit_faces
  dsimp only
  rw [List.getD_eq_getElem _ _ (by simpa using hj), List.getElem_map, List.getElem_range]

/-- **C5 counterexample**: with `max_bones_per_submesh = 3` (the minimum the
validation allows) and a face referencing twelve distinct bones, the emitted
subsplit containing that face references 12 > 3 distinct non-sentinel bones —
refuting the claim's "every max_bones_per_submesh ≥ 3" generality. -/
theorem claimC5_counterexample :
    (subsplit_faces 0 c5Loops true 3 true).length = 2 ∧
    ¬ (((subsplit_faces 0 c5Loops true 3 true).getD 1 default).2.2.length ≤ 3) := by
  constructor
  · rw [subsplit_faces_length]
    decide
  · rw [subsplit_faces_getD_bones 0 c5Loops true 3 true 1 (by decide), Finset.length_sort,
      show (((subsplitBoneSets c5Loops true 3 true).getD 1 ∅).erase (-1)).card = 12 by decide]
    omega

/-- **C5** (corrected).  Provided every individual face fits the limit
(at most `max_bones_per_submesh + 1` distinct values including the sentinel,
which always holds when `max_bones_per_submesh ≥ 12`), every subsplit emitted
by `subsplit_faces` carries at most `max_bones_per_submesh` distinct
non-sentinel bone indices, and its bone table is exactly the set of bones its
faces reference (sentinel removed). -/
theorem claimC5_amended_bone_ceiling (mi : ℕ) (loops : List LoopRow) (ibp : Bool)
    (max_bones_per_submesh : ℕ) (un : Bool)
    (H : ∀ fb ∈ faceBoneLists loops ibp un,
      (insert (-1 : ℤ) fb.toFinset).card ≤ max_bones_per_submesh + 1) :
    ∀ j, j < (subsplit_faces mi loops ibp max_bones_per_submesh un).length →
      (((subsplit_faces mi loops ibp max_bones_per_submesh un).getD j default).2.2.length
        ≤ max_bones_per_submesh) ∧
      (((subsplit_faces mi loops ibp max_bones_per_submesh un).getD j default).2.2.toFinset
        = (SegU (faceBoneLists loops ibp un)
            ((subsplitBoundaries loops ibp max_bones_per_submesh un).getD j 0)
            ((subsplitBoundaries loops ibp max_bones_per_submesh un).getD (j + 1) 0)).erase
          (-1)) := by
  intro j hj
  rw [subsplit_faces_length] at hj
  have hsets := subsplit_segment_sets loops ibp max_bones_per_submesh un j (by omega)
  have hjlen : j < (subsplitBoneSets loops ibp max_bones_per_submesh un).length := by
    set F := faceBoneLists loops ibp un with hF
    set res := subsplitFold (max_bones_per_submesh + 1) F.enum with hres
    have inv := subsplitFold_inv F (max_bones_per_submesh + 1)
    rw [← hres] at inv
    unfold subsplitBoundaries at hj
    unfold subsplitBoneSets
    rw [← hF, ← hres] at hj ⊢
    simp only [List.length_append, List.length_singleton] at hj ⊢
    have := inv.len
    omega
  have hcard := subsplit_segment_card loops ibp max_bones_per_submesh un H
    ((subsplitBoneSets loops ibp max_bones_per_submesh un).getD j ∅)
    (by rw [List.getD_eq_getElem _ _ hjlen]; exact List.getElem_mem hjlen)
  have hneg : (-1 : ℤ) ∈ (subsplitBoneSets loops ibp max_bones_per_submesh un).getD j ∅ := by
    rw [hsets]
    exact neg_one_mem_SegU _ _ _
  rw [subsplit_faces_getD_bones mi loops ibp max_bones_per_submesh un j hj]
  constructor
  · rw [Finset.length_sort, Finset.card_erase_of_mem hneg]
    omega
  · rw [Finset.sort_toFinset, hsets]

/-- **C5 witness** for the amended theorem: the two-face example with
`max_bones_per_submesh = 4` (each face fits the limit); the first emitted
subsplit's bone table has at most 4 entries and is exactly its segment's
bone set without the sentinel. -/
theorem claimC5_witness :
    ((subsplit_faces 0 c4Loops true 4 true).getD 0 default).2.2.length ≤ 4 ∧
    ((subsplit_faces 0 c4Loops true 4 true).getD 0 default).2.2.toFinset
      = (SegU (faceBoneLists c4Loops true true)
          ((subsplitBoundaries c4Loops true 4 true).getD 0 0)
          ((subsplitBoundaries c4Loops true 4 true).getD 1 0)).erase (-1) :=
  claimC5_amended_bone_ceiling 0 c4Loops true 4 true (by decide) 0 (by decide)

/-! ## Supporting lemmas: first-occurrence uniqueness and the argsort dance -/

section NpUniqueLemmas

variable {α : Type} [LinearOrder α] [DecidableEq α] [Inhabited α]

theorem firstUnique_nil : firstUnique ([] : List α) = [] := by
  rw [firstUnique]

theorem firstUnique_cons (x : α) (xs : List α) :
    firstUnique (x :: xs) = x :: firstUnique (xs.filter (fun y => y ≠ x)) := by
  rw [firstUnique]

theorem mem_firstUnique : ∀ (l : List α) (a : α), a ∈ firstUnique l ↔ a ∈ l := by
  intro l
  induction l using firstUnique.induct with
  | case1 => intro a; rw [firstUnique_nil]
  | case2 x xs ih =>
    intro a
    rw [firstUnique_cons, List.mem_cons, ih, List.mem_filter, List.mem_cons]
    by_cases hax : a = x
    · subst hax; simp
    · simp [hax]

theorem nodup_firstUnique : ∀ (l : List α), (firstUnique l).Nodup := by
  intro l
  induction l using firstUnique.induct with
  | case1 => rw [firstUnique_nil]; exact List.nodup_nil
  | case2 x xs ih =>
    rw [firstUnique_cons]
    refine List.Nodup.cons ?_ ih
    intro hmem
    rw [mem_firstUnique, List.mem_filter] at hmem
    simpa using hmem.2

/-- First-occurrence order is preserved by `filter`. -/
theorem indexOf_filter_lt (p : α → Bool) :
    ∀ (l : List α) (a b : α), a ∈ l.filter p → b ∈ l.filter p →
      (l.filter p).indexOf a < (l.filter p).indexOf b →
      l.indexOf a < l.indexOf b := by
  intro l
  induction l with
  | nil => intro a b ha; simp at ha
  | cons c t ih =>
    intro a b ha hb hlt
    by_cases hpc : p c = true
    · rw [List.filter_cons_of_pos hpc] at ha hb hlt
      by_cases hac : a = c
      · subst hac
        have hbne : b ≠ a := by
          intro he
          subst he
          simp at hlt
        rw [List.indexOf_cons_self] at hlt ⊢
        rw [List.indexOf_cons_ne t (fun he => hbne he.symm)]
        exact Nat.succ_pos _
      · have hbc : b ≠ c := by
          intro he
          subst he
          rw [List.indexOf_cons_self] at hlt
          omega
        rw [List.indexOf_cons_ne _ (fun he => hac he.symm),
          List.indexOf_cons_ne _ (fun he => hbc he.symm)] at hlt
        rw [List.indexOf_cons_ne t (fun he => hac he.symm),
          List.indexOf_cons_ne t (fun he => hbc he.symm)]
        have ha' : a ∈ t.filter p := by
          rcases List.mem_cons.1 ha with rfl | h
          · exact absurd rfl hac
          · exact h
        have hb' : b ∈ t.filter p := by
          rcases List.mem_cons.1 hb with rfl | h
          · exact absurd rfl hbc
          · exact h
        exact Nat.succ_lt_succ (ih a b ha' hb' (by omega))
    · rw [List.filter_cons_of_neg hpc] at ha hb hlt
      have hac : a ≠ c := by
        intro he
        subst he
        exact hpc (List.mem_filter.1 ha).2
      have hbc : b ≠ c := by
        intro he
        subst he
        exact hpc (List.mem_filter.1 hb).2
      rw [List.indexOf_cons_ne t (fun he => hac he.symm),
        List.indexOf_cons_ne t (fun he => hbc he.symm)]
      exact Nat.succ_lt_succ (ih a b ha hb hlt)

/-- `firstUnique l` is strictly ordered by first-occurrence position. -/
theorem pairwise_indexOf_firstUnique :
    ∀ (l : List α), (firstUnique l).Pairwise (fun a b => l.indexOf a < l.indexOf b) := by
  intro l
  induction l using firstUnique.induct with
  | case1 => rw [firstUnique_nil]; exact List.Pairwise.nil
  | case2 x xs ih =>
    rw [firstUnique_cons]
    refine List.Pairwise.cons ?_ ?_
    · intro b hb
      rw [mem_firstUnique, List.mem_filter] at hb
      have hbx : b ≠ x := by simpa using hb.2
      rw [List.indexOf_cons_self, List.indexOf_cons_ne xs (fun he => hbx he.symm)]
      exact Nat.succ_pos _
    · refine ih.imp_of_mem ?_
      intro a b ha hb hab
      rw [mem_firstUnique] at ha hb
      have hax : a ≠ x := by simpa using (List.mem_filter.1 ha).2
      have hbx : b ≠ x := by simpa using (List.mem_filter.1 hb).2
      rw [List.indexOf_cons_ne xs (fun he => hax he.symm),
        List.indexOf_cons_ne xs (fun he => hbx he.symm)]
      exact Nat.succ_lt_succ (indexOf_filter_lt _ xs a b ha hb hab)

end NpUniqueLemmas

section ArgsortLemmas

variable {α : Type} [LinearOrder α] [DecidableEq α] [Inhabited α]

theorem argsort_perm (keys : List ℕ) : (argsort keys).Perm (List.range keys.length) :=
  List.perm_insertionSort _ _

theorem argsort_length (keys : List ℕ) : (argsort keys).length = keys.length := by
  rw [(argsort_perm keys).length_eq, List.length_range]

theorem argsort_nodup (keys : List ℕ) : (argsort keys).Nodup :=
  (argsort_perm keys).symm.nodup (List.nodup_range _)

theorem argsort_mem_lt (keys : List ℕ) (i : ℕ) (h : i ∈ argsort keys) : i < keys.length :=
  List.mem_range.1 ((argsort_perm keys).mem_iff.1 h)

theorem argsort_pairwise (keys : List ℕ) :
    (argsort keys).Pairwise (fun i j => keys.getD i 0 ≤ keys.getD j 0) := by
  haveI h1 : IsTotal ℕ (fun i j => keys.getD i 0 ≤ keys.getD j 0) :=
    ⟨fun a b => le_total _ _⟩
  haveI h2 : IsTrans ℕ (fun i j => keys.getD i 0 ≤ keys.getD j 0) :=
    ⟨fun a b c hab hbc => le_trans hab hbc⟩
  exact List.sorted_insertionSort _ _

theorem map_getD_range (l : List α) (d : α) :
    (List.range l.length).map (fun i => l.getD i d) = l := by
  refine List.ext_getElem (by simp) ?_
  intro n h1 h2
  rw [List.getElem_map, List.getElem_range, List.getD_eq_getElem l d h2]

theorem map_getD_range_nat (l : List ℕ) (d : ℕ) :
    (List.range l.length).map (fun i => l.getD i d) = l := by
  refine List.ext_getElem (by simp) ?_
  intro n h1 h2
  rw [List.getElem_map, List.getElem_range, List.getD_eq_getElem l d h2]

theorem npUniqueSorted_mem (rows : List α) (a : α) : a ∈ npUniqueSorted rows ↔ a ∈ rows := by
  unfold npUniqueSorted
  rw [List.mem_insertionSort, List.mem_dedup]

theorem npUniqueSorted_nodup (rows : List α) : (npUniqueSorted rows).Nodup :=
  (List.perm_insertionSort _ _).symm.nodup (List.nodup_dedup rows)

/-- The inverse-argsort composition: `sorting_indices[inverse_sorting_indices[j]] = j`. -/
theorem argsort_argsort_getD (σ : List ℕ) (m : ℕ) (hperm : σ.Perm (List.range m)) (j : ℕ)
    (hj : j < m) : σ.getD ((argsort σ).getD j 0) 0 = j := by
  have hσlen : σ.length = m := by rw [hperm.length_eq, List.length_range]
  have hinvlen : (argsort σ).length = m := by rw [argsort_length, hσlen]
  have hmapeq : (argsort σ).map (fun i => σ.getD i 0) = List.range m := by
    have hp : ((argsort σ).map (fun i => σ.getD i 0)).Perm (List.range m) := by
      have h1 := (argsort_perm σ).map (fun i => σ.getD i 0)
      rw [hσlen] at h1
      have h2 : (List.range m).map (fun i => σ.getD i 0)
          = (List.range σ.length).map (fun i => σ.getD i 0) := by rw [hσlen]
      rw [h2, map_getD_range_nat σ 0] at h1
      exact h1.trans hperm
    have hs1 : List.Sorted (· ≤ ·) ((argsort σ).map (fun i => σ.getD i 0)) :=
      (argsort_pairwise σ).map _ (fun a b h => h)
    have hs2 : List.Sorted (· ≤ ·) (List.range m) := List.sorted_le_range m
    haveI : IsAntisymm ℕ (fun a b : ℕ => a ≤ b) := ⟨fun a b h1 h2 => le_antisymm h1 h2⟩
    exact List.eq_of_perm_of_sorted hp hs1 hs2
  have hj2 : j < ((argsort σ).map (fun i => σ.getD i 0)).length := by
    rw [List.length_map, hinvlen]
    exact hj
  have hj3 : j < (argsort σ).length := by
    rw [hinvlen]
    exact hj
  have hmain : ((argsort σ).map (fun i => σ.getD i 0)).getD j 0
      = (List.range m).getD j 0 := by rw [hmapeq]
  have hL : ((argsort σ).map (fun i => σ.getD i 0)).getD j 0
      = σ.getD ((argsort σ).getD j 0) 0 := by
    rw [List.getD_eq_getElem _ _ hj2, List.getElem_map,
      List.getD_eq_getElem (argsort σ) 0 hj3]
  have hR : (List.range m).getD j 0 = j := by
    rw [List.getD_eq_getElem _ _
      (show j < (List.range m).length by rw [List.length_range]; exact hj),
      List.getElem_range]
  rw [← hL, hmain, hR]

/-- Full specification of the `np.unique` unsorting dance: the emitted vertex
table is the unique rows in first-occurrence order, and the face vertex
indices map each gathered loop row to its row in that table. -/
theorem np_unique_dance_spec (rows : List α) :
    (np_unique_dance rows).1 = firstUnique rows ∧
    ∀ i, i < rows.length →
      (np_unique_dance rows).2.getD i 0 < (np_unique_dance rows).1.length ∧
      (np_unique_dance rows).1.getD ((np_unique_dance rows).2.getD i 0) default
        = rows.getD i default := by
  have hm : (npFirstIndices rows).length = (npUniqueSorted rows).length :=
    List.length_map _ _
  have hσperm : (npSortingIndices rows).Perm (List.range (npUniqueSorted rows).length) := by
    have := argsort_perm (npFirstIndices rows)
    rw [hm] at this
    exact this
  have hσlen : (npSortingIndices rows).length = (npUniqueSorted rows).length := by
    rw [hσperm.length_eq, List.length_range]
  have hσmem : ∀ i ∈ npSortingIndices rows, i < (npUniqueSorted rows).length := by
    intro i hi
    exact List.mem_range.1 (hσperm.mem_iff.1 hi)
  have hkeysD : ∀ j, j < (npUniqueSorted rows).length →
      (npFirstIndices rows).getD j 0
        = List.indexOf ((npUniqueSorted rows).getD j default) rows := by
    intro j hj
    unfold npFirstIndices
    rw [List.getD_eq_getElem _ _ (by rw [List.length_map]; exact hj), List.getElem_map,
      List.getD_eq_getElem _ _ hj]
  -- the unsorted vertex table is strictly ordered by first occurrence
  have hTpair : ((npSortingIndices rows).map
      (fun j => (npUniqueSorted rows).getD j default)).Pairwise
        (fun a b => rows.indexOf a < rows.indexOf b) := by
    have hp1 : (npSortingIndices rows).Pairwise (fun i j =>
        i ≠ j ∧ (npFirstIndices rows).getD i 0 ≤ (npFirstIndices rows).getD j 0) :=
      (argsort_nodup (npFirstIndices rows)).and (argsort_pairwise (npFirstIndices rows))
    have hp2 : (npSortingIndices rows).Pairwise (fun i j =>
        rows.indexOf ((npUniqueSorted rows).getD i default)
          < rows.indexOf ((npUniqueSorted rows).getD j default)) := by
      refine hp1.imp_of_mem ?_
      intro a b ha hb hab
      have haL := hσmem a ha
      have hbL := hσmem b hb
      rw [hkeysD a haL, hkeysD b hbL] at hab
      rcases lt_or_eq_of_le hab.2 with hlt | heq
      · exact hlt
      · exfalso
        have hameme : (npUniqueSorted rows).getD a default ∈ rows := by
          rw [← npUniqueSorted_mem, List.getD_eq_getElem _ _ haL]
          exact List.getElem_mem haL
        have hbmeme : (npUniqueSorted rows).getD b default ∈ rows := by
          rw [← npUniqueSorted_mem, List.getD_eq_getElem _ _ hbL]
          exact List.getElem_mem hbL
        have h1 : List.indexOf ((npUniqueSorted rows).getD a default) rows < rows.length :=
          List.indexOf_lt_length.2 hameme
        have h2 : List.indexOf ((npUniqueSorted rows).getD b default) rows < rows.length :=
          List.indexOf_lt_length.2 hbmeme
        have heq2 : (npUniqueSorted rows).getD a default
            = (npUniqueSorted rows).getD b default := by
          have e1 := List.indexOf_get h1
          have e2 := List.indexOf_get h2
          rw [← e1, ← e2]
          congr 1
          exact Fin.ext heq
        rw [List.getD_eq_getElem _ _ haL, List.getD_eq_getElem _ _ hbL] at heq2
        exact hab.1 ((List.Nodup.getElem_inj_iff (npUniqueSorted_nodup rows)).1 heq2)
    exact hp2.map _ (fun a b h => h)
  have hdance1 : (np_unique_dance rows).1
      = (npSortingIndices rows).map (fun j => (npUniqueSorted rows).getD j default) := rfl
  have hTeq : (np_unique_dance rows).1 = firstUnique rows := by
    rw [hdance1]
    have hperm1 : ((npSortingIndices rows).map
        (fun j => (npUniqueSorted rows).getD j default)).Perm (npUniqueSorted rows) := by
      have h1 := hσperm.map (fun j => (npUniqueSorted rows).getD j default)
      rw [map_getD_range (npUniqueSorted rows) default] at h1
      exact h1
    have hperm2 : ((npSortingIndices rows).map
        (fun j => (npUniqueSorted rows).getD j default)).Perm (firstUnique rows) := by
      refine hperm1.trans ?_
      rw [List.perm_ext_iff_of_nodup (npUniqueSorted_nodup rows) (nodup_firstUnique rows)]
      intro a
      rw [npUniqueSorted_mem, mem_firstUnique]
    have hs1 : List.Sorted (fun x y : α => rows.indexOf x < rows.indexOf y ∨ x = y)
        ((npSortingIndices rows).map (fun j => (npUniqueSorted rows).getD j default)) :=
      hTpair.imp Or.inl
    have hs2 : List.Sorted (fun x y : α => rows.indexOf x < rows.indexOf y ∨ x = y)
        (firstUnique rows) :=
      (pairwise_indexOf_firstUnique rows).imp Or.inl
    haveI : IsAntisymm α (fun x y : α => rows.indexOf x < rows.indexOf y ∨ x = y) := by
      constructor
      intro a b h1 h2
      rcases h1 with h1 | h1
      · rcases h2 with h2 | h2
        · omega
        · exact h2.symm
      · exact h1
    exact List.eq_of_perm_of_sorted hperm2 hs1 hs2
  refine ⟨hTeq, ?_⟩
  intro i hi
  have hv : rows.getD i default ∈ rows := by
    rw [List.getD_eq_getElem _ _ hi]
    exact List.getElem_mem hi
  have hvu : rows.getD i default ∈ npUniqueSorted rows := (npUniqueSorted_mem rows _).2 hv
  have hk : List.indexOf (rows.getD i default) (npUniqueSorted rows)
      < (npUniqueSorted rows).length := List.indexOf_lt_length.2 hvu
  have hinvlen : (npInvSortingIndices rows).length = (npUniqueSorted rows).length := by
    unfold npInvSortingIndices
    rw [argsort_length, hσlen]
  have hidx : (np_unique_dance rows).2.getD i 0
      = (npInvSortingIndices rows).getD
          (List.indexOf (rows.getD i default) (npUniqueSorted rows)) 0 := by
    have hlen2 : i < ((List.range rows.length).map (fun i =>
        (npInvSortingIndices rows).getD
          (List.indexOf (rows.getD i default) (npUniqueSorted rows)) 0)).length := by
      rw [List.length_map, List.length_range]
      exact hi
    have hd2 : (np_unique_dance rows).2 = (List.range rows.length).map (fun i =>
        (npInvSortingIndices rows).getD
          (List.indexOf (rows.getD i default) (npUniqueSorted rows)) 0) := rfl
    rw [hd2, List.getD_eq_getElem _ _ hlen2, List.getElem_map, List.getElem_range]
  have hidxlt : (np_unique_dance rows).2.getD i 0 < (npUniqueSorted rows).length := by
    rw [hidx]
    have hmem : (npInvSortingIndices rows).getD
        (List.indexOf (rows.getD i default) (npUniqueSorted rows)) 0
          ∈ npInvSortingIndices rows := by
      rw [List.getD_eq_getElem _ _ (by rw [hinvlen]; exact hk)]
      exact List.getElem_mem _
    have := argsort_mem_lt (npSortingIndices rows) _ hmem
    rw [hσlen] at this
    exact this
  have hTlen : (np_unique_dance rows).1.length = (npUniqueSorted rows).length := by
    rw [hdance1, List.length_map, hσlen]
  refine ⟨by rw [hTlen]; exact hidxlt, ?_⟩
  rw [hdance1, hidx]
  have hgoal : ((npSortingIndices rows).map
      (fun j => (npUniqueSorted rows).getD j default)).getD
        ((npInvSortingIndices rows).getD
          (List.indexOf (rows.getD i default) (npUniqueSorted rows)) 0) default
      = (npUniqueSorted rows).getD
          ((npSortingIndices rows).getD
            ((npInvSortingIndices rows).getD
              (List.indexOf (rows.getD i default) (npUniqueSorted rows)) 0) 0) default := by
    have hlt : (npInvSortingIndices rows).getD
        (List.indexOf (rows.getD i default) (npUniqueSorted rows)) 0
          < (npSortingIndices rows).length := by
      rw [hσlen]
      rw [← hidx]
      exact hidxlt
    rw [List.getD_eq_getElem _ _ (by rw [List.length_map]; exact hlt), List.getElem_map,
      List.getD_eq_getElem _ _ hlt]
  rw [hgoal]
  have hff := argsort_argsort_getD (npSortingIndices rows) (npUniqueSorted rows).length
    hσperm (List.indexOf (rows.getD i default) (npUniqueSorted rows)) hk
  unfold npInvSortingIndices
  rw [hff]
  have := List.indexOf_get hk
  rw [List.getD_eq_getElem _ _ hk]
  exact this

end ArgsortLemmas

/-- **C7** (confirmed).  In `split_mesh`'s final vertex reduction, the
emitted vertex table consists of the unique gathered loop rows in
first-occurrence order, and the face vertex indices index each gathered row's
position in that unsorted table. -/
theorem claimC7_first_occurrence_order {α : Type} [LinearOrder α] [DecidableEq α]
    [Inhabited α] (rows : List α) :
    (np_unique_dance rows).1 = firstUnique rows ∧
    ∀ i, i < rows.length →
      (np_unique_dance rows).2.getD i 0 < (np_unique_dance rows).1.length ∧
      (np_unique_dance rows).1.getD ((np_unique_dance rows).2.getD i 0) default
        = rows.getD i default :=
  np_unique_dance_spec rows

/-- **C7 witness**: the dance on `[5, 3, 5, 2]` yields `[5, 3, 2]` with index
map `[0, 1, 0, 2]`; position 2 maps back to its row. -/
theorem claimC7_witness :
    (np_unique_dance ([5, 3, 5, 2] : List ℕ)).1 = firstUnique [5, 3, 5, 2] ∧
    ((np_unique_dance ([5, 3, 5, 2] : List ℕ)).2.getD 2 0
        < (np_unique_dance ([5, 3, 5, 2] : List ℕ)).1.length ∧
      (np_unique_dance ([5, 3, 5, 2] : List ℕ)).1.getD
          ((np_unique_dance ([5, 3, 5, 2] : List ℕ)).2.getD 2 0) default
        = ([5, 3, 5, 2] : List ℕ).getD 2 default) :=
  ⟨(claimC7_first_occurrence_order ([5, 3, 5, 2] : List ℕ)).1,
   (claimC7_first_occurrence_order ([5, 3, 5, 2] : List ℕ)).2 2 (by decide)⟩

/-- The up-front validation loop of `split_mesh` propagates the first
per-definition validation error. -/
theorem validateDefs_error_of_none (defs : List SplitSubmeshDef) (g : List String)
    (h : ∃ d ∈ defs, d.uv_layer_names = none) :
    ∃ e, validateDefs defs g = .error e := by
  induction defs with
  | nil => obtain ⟨d, hd, _⟩ := h; cases hd
  | cons d rest ih =>
    obtain ⟨d', hd', hnone⟩ := h
    rcases List.mem_cons.1 hd' with rfl | hmem
    · refine ⟨.typeError, ?_⟩
      unfold validateDefs get_validated_uv_layer_names
      rw [hnone]
    · unfold validateDefs
      cases hval : get_validated_uv_layer_names d g with
      | error e => exact ⟨e, rfl⟩
      | ok names =>
        obtain ⟨e, he⟩ := ih ⟨d', hmem, hnone⟩
        exact ⟨e, by rw [he]⟩

/-- **C9** (confirmed).  (1) A `SplitSubmeshDef` whose `uv_layer_names` is
`None` makes `get_validated_uv_layer_names` raise `TypeError` (`len(None)`)
instead of returning the synthesized `UVMap{i}` names; (2) an empty list with
a layout declaring at least one UV raises `ValueError`; (3) since
`split_mesh` validates every definition up front, it fails before any data
processing whenever any definition omits `uv_layer_names` — so the
synthesized default names are never actually used. -/
theorem claimC9_uv_default_names_unreachable :
    (∀ (d : SplitSubmeshDef) (g : List String), d.uv_layer_names = none →
      get_validated_uv_layer_names d g = .error .typeError) ∧
    (∀ (d : SplitSubmeshDef) (g : List String), d.uv_layer_names = some [] →
      1 ≤ d.layout_uv_count → get_validated_uv_layer_names d g = .error .valueError) ∧
    (∀ (m : MergedMesh) (defs : List SplitSubmeshDef) (u : Bool) (mb : ℕ) (un : Bool),
      (∃ d ∈ defs, d.uv_layer_names = none) →
      ∃ e, split_mesh m defs u mb un = .error e) := by
  refine ⟨?_, ?_, ?_⟩
  · intro d g h
    unfold get_validated_uv_layer_names
    rw [h]
  · intro d g h hc
    unfold get_validated_uv_layer_names
    rw [h]
    dsimp only
    rw [if_pos (by simp only [List.length_nil]; omega :
      (([] : List String).length ≠ d.layout_uv_count))]
  · intro m defs u mb un h
    unfold split_mesh
    by_cases hb : (u && decide (mb < 3)) = true
    · rw [if_pos hb]; exact ⟨.valueError, rfl⟩
    · rw [if_neg hb]
      obtain ⟨e, he⟩ := validateDefs_error_of_none defs m.loop_uvs h
      rw [he]
      exact ⟨e, rfl⟩

/-- **C9 witness**: concrete instantiations of all three parts. -/
theorem claimC9_witness :
    get_validated_uv_layer_names ⟨0, 2, true, 1, none⟩ ["UVMap0"] = .error .typeError ∧
    get_validated_uv_layer_names ⟨0, 2, true, 1, some []⟩ ["UVMap0"] = .error .valueError ∧
    ∃ e, split_mesh default [⟨0, 2, true, 1, none⟩] false 38 false = .error e :=
  ⟨claimC9_uv_default_names_unreachable.1 ⟨0, 2, true, 1, none⟩ ["UVMap0"] rfl,
   claimC9_uv_default_names_unreachable.2.1 ⟨0, 2, true, 1, some []⟩ ["UVMap0"] rfl
     (by decide),
   claimC9_uv_default_names_unreachable.2.2 default [⟨0, 2, true, 1, none⟩] false 38 false
     ⟨⟨0, 2, true, 1, none⟩, List.mem_singleton.2 rfl, rfl⟩⟩

/-! ## Supporting lemmas: the merge/resplit round trip (C1) -/

theorem getD_append_right' {α : Type} (l₁ l₂ : List α) (d : α) (i : ℕ) :
    (l₁ ++ l₂).getD (l₁.length + i) d = l₂.getD i d := by
  simp [List.getD_eq_getElem?_getD, List.getElem?_append_right (Nat.le_add_right _ _)]

theorem getD_map_range' {β : Type} (n : ℕ) (f : ℕ → β) (i : ℕ) (d : β) (h : i < n) :
    ((List.range n).map f).getD i d = f i := by
  rw [List.getD_eq_getElem _ _ (by simp [h]), List.getElem_map, List.getElem_range]

theorem getD_mem' {α : Type} (l : List α) (i : ℕ) (d : α) (h : i < l.length) :
    l.getD i d ∈ l := by
  rw [List.getD_eq_getElem _ _ h]
  exact List.getElem_mem h

theorem offsetOf_zero (sms : List Submesh) : offsetOf sms 0 = 0 := rfl

theorem offsetOf_cons_succ (sm : Submesh) (rest : List Submesh) (k : ℕ) :
    offsetOf (sm :: rest) (k + 1) = sm.vertices.length + offsetOf rest k := by
  simp [offsetOf]

theorem build_stacked_cons (sm : Submesh) (rest : List Submesh) :
    build_stacked_loops (sm :: rest)
      = sm.vertices.map (stackVertex sm.bone_indices) ++ build_stacked_loops rest := by
  simp [build_stacked_loops]

theorem length_build_stacked (sms : List Submesh) :
    (build_stacked_loops sms).length = offsetOf sms sms.length := by
  induction sms with
  | nil => rfl
  | cons sm rest ih =>
    rw [build_stacked_cons, List.length_append, List.length_map, ih,
      List.length_cons, offsetOf_cons_succ]

theorem offsetOf_add_le (sms : List Submesh) : ∀ k, k < sms.length →
    offsetOf sms k + (sms.getD k default).vertices.length ≤ offsetOf sms sms.length := by
  induction sms with
  | nil => intro k hk; cases hk
  | cons sm rest ih =>
    intro k hk
    rw [List.length_cons, offsetOf_cons_succ]
    cases k with
    | zero =>
      rw [offsetOf_zero, Nat.zero_add]
      have : (sm :: rest).getD 0 default = sm := rfl
      rw [this]
      exact Nat.le_add_right _ _
    | succ k =>
      rw [offsetOf_cons_succ]
      have hg : (sm :: rest).getD (k + 1) default = rest.getD k default := rfl
      rw [hg]
      have := ih k (Nat.lt_of_succ_lt_succ hk)
      omega

theorem build_stacked_getD (sms : List Submesh) : ∀ k j, k < sms.length →
    j < (sms.getD k default).vertices.length →
    (build_stacked_loops sms).getD (offsetOf sms k + j) default
      = stackedRowOf (sms.getD k default) j := by
  induction sms with
  | nil => intro k j hk _; cases hk
  | cons sm rest ih =>
    intro k j hk hj
    cases k with
    | zero =>
      rw [offsetOf_zero, Nat.zero_add, build_stacked_cons]
      have hg : (sm :: rest).getD 0 default = sm := rfl
      rw [hg] at hj ⊢
      have hj' : j < (sm.vertices.map (stackVertex sm.bone_indices)).length := by
        rw [List.length_map]; exact hj
      rw [getD_append_left' _ _ _ _ hj', List.getD_eq_getElem _ _ hj', List.getElem_map]
      show stackVertex sm.bone_indices sm.vertices[j] = stackedRowOf sm j
      unfold stackedRowOf
      rw [List.getD_eq_getElem _ _ hj]
    | succ k =>
      rw [build_stacked_cons, offsetOf_cons_succ, Nat.add_assoc]
      have h1 : sm.vertices.length = (sm.vertices.map (stackVertex sm.bone_indices)).length := by
        rw [List.length_map]
      rw [h1, getD_append_right']
      have hg : (sm :: rest).getD (k + 1) default = rest.getD k default := rfl
      rw [hg] at hj ⊢
      exact ih k j (Nat.lt_of_succ_lt_succ hk) hj

theorem mem_allLoopSeq_sub (sms : List Submesh) : ∀ (o k : ℕ), k < sms.length →
    ∀ l ∈ submeshLoopSeq (o + offsetOf sms k) (sms.getD k default), l ∈ allLoopSeq o sms := by
  induction sms with
  | nil => intro o k hk; cases hk
  | cons sm rest ih =>
    intro o k hk l hl
    show l ∈ submeshLoopSeq o sm ++ allLoopSeq (o + sm.vertices.length) rest
    cases k with
    | zero =>
      apply List.mem_append_left
      have hg : (sm :: rest).getD 0 default = sm := rfl
      rw [hg, offsetOf_zero, Nat.add_zero] at hl
      exact hl
    | succ k =>
      apply List.mem_append_right
      apply ih (o + sm.vertices.length) k (Nat.lt_of_succ_lt_succ hk) l
      have hg : (sm :: rest).getD (k + 1) default = rest.getD k default := rfl
      rw [hg, offsetOf_cons_succ, ← Nat.add_assoc] at hl
      exact hl

theorem corner_mem_submeshLoopSeq (o : ℕ) (sm : Submesh) (t : ℕ × ℕ × ℕ)
    (ht : t ∈ firstFaceSetTriangles sm) :
    t.1 + o ∈ submeshLoopSeq o sm ∧ t.2.1 + o ∈ submeshLoopSeq o sm ∧
      t.2.2 + o ∈ submeshLoopSeq o sm := by
  unfold submeshLoopSeq
  refine ⟨?_, ?_, ?_⟩ <;> exact List.mem_flatMap.2 ⟨t, ht, by simp [triLoops]⟩

theorem allFaces_cons (o : ℕ) (sm : Submesh) (mat : ℕ) (rest : List (Submesh × ℕ)) :
    allFaces o ((sm, mat) :: rest)
      = submeshFaces o mat sm ++ allFaces (o + sm.vertices.length) rest := rfl

theorem submeshFaces_filter (o m m' : ℕ) (sm : Submesh) :
    (submeshFaces o m sm).filter (fun f => f.2.2.2 = m')
      = if m = m' then submeshFaces o m sm else [] := by
  unfold submeshFaces
  rw [List.filter_map]
  by_cases h : m = m'
  · subst h
    have hp : ((fun f : ℕ × ℕ × ℕ × ℕ => decide (f.2.2.2 = m))
        ∘ fun t : ℕ × ℕ × ℕ => (t.1 + o, t.2.1 + o, t.2.2 + o, m)) = fun _ => true := by
      funext t; simp
    rw [hp, if_pos rfl, List.filter_true]
  · have hp : ((fun f : ℕ × ℕ × ℕ × ℕ => decide (f.2.2.2 = m'))
        ∘ fun t : ℕ × ℕ × ℕ => (t.1 + o, t.2.1 + o, t.2.2 + o, m)) = fun _ => false := by
      funext t; simp [h]
    rw [hp, if_neg h, List.filter_false, List.map_nil]

theorem allFaces_tag_ge (sms : List Submesh) : ∀ (o b : ℕ),
    ∀ f ∈ allFaces o (sms.zip (List.range' b sms.length)), b ≤ f.2.2.2 := by
  induction sms with
  | nil => intro o b f hf; cases hf
  | cons sm rest ih =>
    intro o b f hf
    rw [List.length_cons, List.range'_succ, List.zip_cons_cons, allFaces_cons] at hf
    rcases List.mem_append.1 hf with h1 | h2
    · unfold submeshFaces at h1
      obtain ⟨t, -, rfl⟩ := List.mem_map.1 h1
      exact Nat.le_refl b
    · exact Nat.le_of_succ_le (ih (o + sm.vertices.length) (b + 1) f h2)

theorem allFaces_filter_eq (sms : List Submesh) : ∀ (o b k : ℕ), k < sms.length →
    (allFaces o (sms.zip (List.range' b sms.length))).filter (fun f => f.2.2.2 = b + k)
      = submeshFaces (o + offsetOf sms k) (b + k) (sms.getD k default) := by
  induction sms with
  | nil => intro o b k hk; cases hk
  | cons sm rest ih =>
    intro o b k hk
    rw [List.length_cons, List.range'_succ, List.zip_cons_cons, allFaces_cons,
      List.filter_append]
    cases k with
    | zero =>
      rw [Nat.add_zero, submeshFaces_filter o b b sm, if_pos rfl]
      have hnil : (allFaces (o + sm.vertices.length)
          (rest.zip (List.range' (b + 1) rest.length))).filter (fun f => f.2.2.2 = b) = [] := by
        apply List.filter_eq_nil_iff.2
        intro f hf
        have := allFaces_tag_ge rest (o + sm.vertices.length) (b + 1) f hf
        simp only [decide_eq_true_eq]
        omega
      rw [hnil, List.append_nil, offsetOf_zero, Nat.add_zero]
      rfl
    | succ k =>
      rw [show b + (k + 1) = (b + 1) + k from by omega]
      rw [submeshFaces_filter o b ((b + 1) + k) sm, if_neg (by omega), List.nil_append]
      rw [ih (o + sm.vertices.length) (b + 1) k (Nat.lt_of_succ_lt_succ hk)]
      rw [offsetOf_cons_succ]
      have hg : (sm :: rest).getD (k + 1) default = rest.getD k default := rfl
      rw [hg, ← Nat.add_assoc]

theorem faces_filter_range (sms : List Submesh) (k : ℕ) (hk : k < sms.length) :
    (allFaces 0 (sms.zip (List.range sms.length))).filter (fun f => f.2.2.2 = k)
      = submeshFaces (offsetOf sms k) k (sms.getD k default) := by
  have h := allFaces_filter_eq sms 0 0 k hk
  rw [List.range_eq_range']
  simpa using h

theorem merge_lookup_restores (V : List VertexRow) (N : List Vec3) (seq : List ℕ)
    (init : List ℕ) (l : ℕ) (hl : l ∈ seq) (hb : l < init.length) :
    ((seq.foldl (processLoop V N) ⟨[], [], [], 0, init, []⟩).reduced.map
        (fun i => V.getD i default)).getD
      ((seq.foldl (processLoop V N) ⟨[], [], [], 0, init, []⟩).lvi.getD l 0) default
      = V.getD l default := by
  have hinv := foldl_processLoop_inv V N init.length seq _ (mergeInv_initial V init)
  have hassigned := foldl_processLoop_assigned V N seq ⟨[], [], [], 0, init, []⟩ l (Or.inl hl)
  set st := seq.foldl (processLoop V N) ⟨[], [], [], 0, init, []⟩ with hst
  have hlt := hinv.assigned_lt l hassigned hb
  have hkey := hinv.assigned_key l hassigned hb
  have hidx : st.lvi.getD l 0 < st.reduced.length := by rw [hinv.len_red]; exact hlt
  rw [List.getD_eq_getElem _ _ (by rw [List.length_map]; exact hidx), List.getElem_map,
    ← List.getD_eq_getElem st.reduced 0 hidx]
  exact hkey

theorem getD_map_vertex (stacked : List LoopRow) (l : ℕ) (hb : l < stacked.length) :
    (stacked.map (fun r => r.vertex)).getD l default = (stacked.getD l default).vertex := by
  rw [List.getD_eq_getElem _ _ (by rw [List.length_map]; exact hb), List.getElem_map,
    List.getD_eq_getElem _ _ hb]

theorem getD_map_normal (stacked : List LoopRow) (l : ℕ) (hb : l < stacked.length) :
    (stacked.map (fun r => r.normal)).getD l (0, 0, 0) = (stacked.getD l default).normal := by
  rw [List.getD_eq_getElem _ _ (by rw [List.length_map]; exact hb), List.getElem_map,
    List.getD_eq_getElem _ _ hb]

theorem getD_map_extra (stacked : List LoopRow) (l : ℕ) (hb : l < stacked.length) :
    (stacked.map (fun r => r.extra)).getD l [] = (stacked.getD l default).extra := by
  rw [List.getD_eq_getElem _ _ (by rw [List.length_map]; exact hb), List.getElem_map,
    List.getD_eq_getElem _ _ hb]

theorem from_flver_fields (flver : FLVER) (g : ℕ → ℕ) (mm : MergedMesh)
    (h : from_flver flver g none = .ok mm) :
    mm.faces = allFaces 0 (flver.submeshes.zip (List.range flver.submeshes.length)) ∧
    mm.loop_uvs = [] ∧
    mm.loop_vertex_indices.length = (build_stacked_loops flver.submeshes).length := by
  unfold from_flver at h
  by_cases hsub : flver.submeshes = []
  · rw [if_pos hsub] at h; cases h
  rw [if_neg hsub] at h
  dsimp only at h
  obtain rfl : _ = mm := Except.ok.inj h
  refine ⟨rfl, rfl, ?_⟩
  unfold merge_vertices
  dsimp only
  have hinv := foldl_processLoop_inv
    ((build_stacked_loops flver.submeshes).map (fun r => r.vertex))
    ((build_stacked_loops flver.submeshes).map (fun r => r.normal))
    ((List.range (build_stacked_loops flver.submeshes).length).map g).length
    (allLoopSeq 0 flver.submeshes)
    ⟨[], [], [], 0, (List.range (build_stacked_loops flver.submeshes).length).map g, []⟩
    (mergeInv_initial _ _)
  rw [hinv.lvi_len, List.length_map, List.length_range]

theorem get_combined_restores (flver : FLVER) (g : ℕ → ℕ) (mm : MergedMesh)
    (h : from_flver flver g none = .ok mm) (l : ℕ)
    (hl : l ∈ allLoopSeq 0 flver.submeshes)
    (hb : l < (build_stacked_loops flver.submeshes).length) :
    (get_combined_loop_data mm).getD l default
      = (build_stacked_loops flver.submeshes).getD l default := by
  unfold from_flver at h
  by_cases hsub : flver.submeshes = []
  · rw [if_pos hsub] at h; cases h
  rw [if_neg hsub] at h
  dsimp only at h
  obtain rfl : _ = mm := Except.ok.inj h
  unfold get_combined_loop_data merge_vertices
  dsimp only
  set stacked := build_stacked_loops flver.submeshes with hstk
  set V := stacked.map (fun r => r.vertex) with hV
  set N := stacked.map (fun r => r.normal) with hN
  set init := (List.range stacked.length).map g with hinitd
  have hinitlen : init.length = stacked.length := by
    rw [hinitd, List.length_map, List.length_range]
  set st := (allLoopSeq 0 flver.submeshes).foldl (processLoop V N)
    ⟨[], [], [], 0, init, []⟩ with hstdef
  have hinv := foldl_processLoop_inv V N init.length (allLoopSeq 0 flver.submeshes) _
    (mergeInv_initial V init)
  rw [← hstdef] at hinv
  have hlvilen : st.lvi.length = init.length := hinv.lvi_len
  have hlt : l < st.lvi.length := by rw [hlvilen, hinitlen]; exact hb
  rw [getD_map_range' st.lvi.length _ l default hlt]
  have hv := merge_lookup_restores V N (allLoopSeq 0 flver.submeshes) init l hl
    (by rw [hinitlen]; exact hb)
  rw [← hstdef] at hv
  rw [hv, getD_map_vertex stacked l hb, getD_map_normal stacked l hb, getD_map_extra stacked l hb]

theorem validateDefs_ok_of_trivial (defs : List SplitSubmeshDef) (g : List String)
    (hd : ∀ d ∈ defs, d.uv_layer_names = some [] ∧ d.layout_uv_count = 0) :
    validateDefs defs g = .ok (List.replicate defs.length []) := by
  induction defs with
  | nil => rfl
  | cons d rest ih =>
    obtain ⟨hn, hc⟩ := hd d (List.mem_cons_self d rest)
    unfold validateDefs get_validated_uv_layer_names
    rw [hn, hc]
    dsimp only
    rw [ih (fun d' hd' => hd d' (List.mem_cons_of_mem _ hd'))]
    rfl

theorem flatMap_eq_map_of_singleton {β : Type} (l : List ℕ) (F : ℕ → List β) (G : ℕ → β)
    (h : ∀ k ∈ l, F k = [G k]) : l.flatMap F = l.map G := by
  induction l with
  | nil => rfl
  | cons x rest ih =>
    rw [List.flatMap_cons, h x (List.mem_cons_self x rest), List.map_cons,
      ih (fun k hk => h k (List.mem_cons_of_mem _ hk))]
    rfl

theorem flatMap_congr_mem {β γ : Type} (l : List γ) (f g' : γ → List β)
    (h : ∀ a ∈ l, f a = g' a) : l.flatMap f = l.flatMap g' := by
  induction l with
  | nil => rfl
  | cons x rest ih =>
    rw [List.flatMap_cons, List.flatMap_cons, h x (List.mem_cons_self x rest),
      ih (fun a ha => h a (List.mem_cons_of_mem _ ha))]

theorem rowsOfTris_length (sm : Submesh) : ∀ tris : List (ℕ × ℕ × ℕ),
    (rowsOfTris sm tris).length = 3 * tris.length := by
  intro tris
  induction tris with
  | nil => rfl
  | cons t rest ih =>
    show (_ :: _ :: _ :: rowsOfTris sm rest).length = _
    simp only [List.length_cons, ih]
    omega

theorem rowsOfTris_getD (sm : Submesh) : ∀ (tris : List (ℕ × ℕ × ℕ)) (i : ℕ),
    i < tris.length →
    (rowsOfTris sm tris).getD (3 * i) default = stackedRowOf sm (tris.getD i default).1 ∧
    (rowsOfTris sm tris).getD (3 * i + 1) default = stackedRowOf sm (tris.getD i default).2.1 ∧
    (rowsOfTris sm tris).getD (3 * i + 2) default = stackedRowOf sm (tris.getD i default).2.2 := by
  intro tris
  induction tris with
  | nil => intro i hi; cases hi
  | cons t rest ih =>
    intro i hi
    cases i with
    | zero => exact ⟨rfl, rfl, rfl⟩
    | succ i =>
      obtain ⟨a, b, c⟩ := ih i (Nat.lt_of_succ_lt_succ hi)
      refine ⟨?_, ?_, ?_⟩
      · rw [show 3 * (i + 1) = 3 * i + 1 + 1 + 1 from by ring]
        exact a
      · rw [show 3 * (i + 1) + 1 = (3 * i + 1) + 1 + 1 + 1 from by ring]
        exact b
      · rw [show 3 * (i + 1) + 2 = (3 * i + 2) + 1 + 1 + 1 from by ring]
        exact c

theorem np_unique_dance_idx_length {α : Type} [LinearOrder α] [DecidableEq α] [Inhabited α]
    (rows : List α) : (np_unique_dance rows).2.length = rows.length := by
  simp [np_unique_dance]

theorem headD_replicate_max {β : Type} (fsc : ℕ) (x d : β) :
    (List.replicate (max fsc 1) x).headD d = x := by
  have h : max fsc 1 = (max fsc 1 - 1) + 1 := by omega
  rw [h, List.replicate_succ]
  rfl

theorem split_mesh_no_bones (m : MergedMesh) (defs : List SplitSubmeshDef) (maxB : ℕ)
    (w : List (List String)) (hval : validateDefs defs m.loop_uvs = .ok w) :
    split_mesh m defs false maxB false
      = .ok (((List.range defs.length).flatMap (splitBranch m)).map (splitFinish defs)) := by
  unfold split_mesh
  rw [Bool.false_and, if_neg Bool.false_ne_true, hval]
  rfl

theorem corner_mem_all (sms : List Submesh) (mi : ℕ) (hmi : mi < sms.length)
    (t : ℕ × ℕ × ℕ) (ht : t ∈ firstFaceSetTriangles (sms.getD mi default)) :
    t.1 + offsetOf sms mi ∈ allLoopSeq 0 sms ∧
    t.2.1 + offsetOf sms mi ∈ allLoopSeq 0 sms ∧
    t.2.2 + offsetOf sms mi ∈ allLoopSeq 0 sms := by
  obtain ⟨h1, h2, h3⟩ := corner_mem_submeshLoopSeq (offsetOf sms mi) (sms.getD mi default) t ht
  have hz : (0 : ℕ) + offsetOf sms mi = offsetOf sms mi := Nat.zero_add _
  refine ⟨?_, ?_, ?_⟩ <;>
  · apply mem_allLoopSeq_sub sms 0 mi hmi
    rw [hz]
    assumption

theorem corner_restore (flver : FLVER) (g : ℕ → ℕ) (mm : MergedMesh)
    (h : from_flver flver g none = .ok mm) (mi : ℕ) (hmi : mi < flver.submeshes.length)
    (c : ℕ) (hc : c < (flver.submeshes.getD mi default).vertices.length)
    (hmem : c + offsetOf flver.submeshes mi ∈ allLoopSeq 0 flver.submeshes) :
    (get_combined_loop_data mm).getD (c + offsetOf flver.submeshes mi) default
      = stackedRowOf (flver.submeshes.getD mi default) c := by
  have hb : c + offsetOf flver.submeshes mi < (build_stacked_loops flver.submeshes).length := by
    rw [length_build_stacked]
    have := offsetOf_add_le flver.submeshes mi hmi
    omega
  rw [get_combined_restores flver g mm h _ hmem hb, Nat.add_comm,
    build_stacked_getD flver.submeshes mi c hmi hc]

theorem splitBranch_eq (flver : FLVER) (g : ℕ → ℕ) (mm : MergedMesh)
    (h : from_flver flver g none = .ok mm)
    (hbound : ∀ sm ∈ flver.submeshes, ∀ t ∈ firstFaceSetTriangles sm,
      t.1 < sm.vertices.length ∧ t.2.1 < sm.vertices.length ∧ t.2.2 < sm.vertices.length)
    (mi : ℕ) (hmi : mi < flver.submeshes.length)
    (htri : firstFaceSetTriangles (flver.submeshes.getD mi default) ≠ []) :
    splitBranch mm mi
      = [(mi, origLoopRows (flver.submeshes.getD mi default), (none : Option (List ℤ)))] := by
  obtain ⟨hfaces, -, -⟩ := from_flver_fields flver g mm h
  unfold splitBranch
  dsimp only
  rw [hfaces, faces_filter_range flver.submeshes mi hmi]
  unfold submeshFaces
  rw [List.map_map]
  have hproj : ((fun f : ℕ × ℕ × ℕ × ℕ => (f.1, f.2.1, f.2.2.1))
      ∘ fun t : ℕ × ℕ × ℕ => (t.1 + offsetOf flver.submeshes mi,
        t.2.1 + offsetOf flver.submeshes mi, t.2.2 + offsetOf flver.submeshes mi, mi))
      = fun t : ℕ × ℕ × ℕ => (t.1 + offsetOf flver.submeshes mi,
        t.2.1 + offsetOf flver.submeshes mi, t.2.2 + offsetOf flver.submeshes mi) := rfl
  rw [hproj]
  have hfe : ((firstFaceSetTriangles (flver.submeshes.getD mi default)).map
      (fun t => (t.1 + offsetOf flver.submeshes mi, t.2.1 + offsetOf flver.submeshes mi,
        t.2.2 + offsetOf flver.submeshes mi))).isEmpty = false := by
    apply List.isEmpty_eq_false.mpr
    intro hcontra
    exact htri (List.map_eq_nil_iff.1 hcontra)
  rw [hfe, if_neg Bool.false_ne_true]
  have hloops : (((firstFaceSetTriangles (flver.submeshes.getD mi default)).map
        (fun t => (t.1 + offsetOf flver.submeshes mi, t.2.1 + offsetOf flver.submeshes mi,
          t.2.2 + offsetOf flver.submeshes mi))).flatMap
      (fun t => [t.1, t.2.1, t.2.2])).map
        (fun l => (get_combined_loop_data mm).getD l default)
      = origLoopRows (flver.submeshes.getD mi default) := by
    rw [List.flatMap_map, List.map_flatMap]
    unfold origLoopRows rowsOfTris
    apply flatMap_congr_mem
    intro t ht
    obtain ⟨hb1, hb2, hb3⟩ :=
      hbound (flver.submeshes.getD mi default) (getD_mem' flver.submeshes mi default hmi) t ht
    obtain ⟨hm1, hm2, hm3⟩ := corner_mem_all flver.submeshes mi hmi t ht
    show [(get_combined_loop_data mm).getD (t.1 + offsetOf flver.submeshes mi) default,
          (get_combined_loop_data mm).getD (t.2.1 + offsetOf flver.submeshes mi) default,
          (get_combined_loop_data mm).getD (t.2.2 + offsetOf flver.submeshes mi) default] = _
    rw [corner_restore flver g mm h mi hmi t.1 hb1 hm1,
      corner_restore flver g mm h mi hmi t.2.1 hb2 hm2,
      corner_restore flver g mm h mi hmi t.2.2 hb3 hm3]
  rw [hloops]

/-- **C1** (corrected).  Merging a FLVER with `from_flver` and immediately
resplitting it with `split_mesh` under matching definitions (one definition
per submesh, no UV layers, submesh bone tables disabled) emits exactly one
submesh per original submesh, which reproduces in order every triangle of the
original submesh's first face set as a triple of consolidated loop rows
(documented defaults filled, local bone indices remapped globally), and whose
vertex table contains the full consolidated row of every vertex referenced by
those triangles.  Vertices referenced by no triangle are dropped (see the
counterexample), so the original vertex *tables* are not reproduced. -/
theorem claimC1_amended_round_trip (flver : FLVER) (g : ℕ → ℕ)
    (defs : List SplitSubmeshDef) (maxB : ℕ)
    (hne : flver.submeshes ≠ [])
    (htris : ∀ sm ∈ flver.submeshes, firstFaceSetTriangles sm ≠ [])
    (hbound : ∀ sm ∈ flver.submeshes, ∀ t ∈ firstFaceSetTriangles sm,
      t.1 < sm.vertices.length ∧ t.2.1 < sm.vertices.length ∧ t.2.2 < sm.vertices.length)
    (hdlen : defs.length = flver.submeshes.length)
    (hdefs : ∀ d ∈ defs, d.uv_layer_names = some [] ∧ d.layout_uv_count = 0) :
    ∃ mm outs, from_flver flver g none = .ok mm ∧
      split_mesh mm defs false maxB false = .ok outs ∧
      outs.length = flver.submeshes.length ∧
      ∀ k, k < flver.submeshes.length →
        (outs.getD k default).material = k ∧
        outFaceRows (outs.getD k default) = origFaceRows (flver.submeshes.getD k default) ∧
        ∀ t ∈ firstFaceSetTriangles (flver.submeshes.getD k default),
          stackedRowOf (flver.submeshes.getD k default) t.1 ∈ (outs.getD k default).vertices ∧
          stackedRowOf (flver.submeshes.getD k default) t.2.1 ∈ (outs.getD k default).vertices ∧
          stackedRowOf (flver.submeshes.getD k default) t.2.2 ∈ (outs.getD k default).vertices := by
  obtain ⟨mm, hmm⟩ : ∃ mm, from_flver flver g none = .ok mm := by
    unfold from_flver
    rw [if_neg hne]
    exact ⟨_, rfl⟩
  have hval : validateDefs defs mm.loop_uvs = .ok (List.replicate defs.length []) :=
    validateDefs_ok_of_trivial defs mm.loop_uvs hdefs
  have hsplit := split_mesh_no_bones mm defs maxB _ hval
  have hflat : (List.range defs.length).flatMap (splitBranch mm)
      = (List.range flver.submeshes.length).map
          (fun mi => (mi, origLoopRows (flver.submeshes.getD mi default),
            (none : Option (List ℤ)))) := by
    rw [hdlen]
    apply flatMap_eq_map_of_singleton
    intro k hk
    exact splitBranch_eq flver g mm hmm hbound k (List.mem_range.1 hk)
      (htris _ (getD_mem' flver.submeshes k default (List.mem_range.1 hk)))
  rw [hflat, List.map_map] at hsplit
  refine ⟨mm, _, hmm, hsplit, ?_, ?_⟩
  · rw [List.length_map, List.length_range]
  intro k hk
  have hout : ((List.range flver.submeshes.length).map
      (splitFinish defs ∘ fun mi => (mi, origLoopRows (flver.submeshes.getD mi default),
        (none : Option (List ℤ))))).getD k default
      = splitFinish defs (k, origLoopRows (flver.submeshes.getD k default), none) :=
    getD_map_range' flver.submeshes.length _ k default hk
  rw [hout]
  set sm := flver.submeshes.getD k default with hsmdef
  set R := origLoopRows sm with hRdef
  have hR : R = rowsOfTris sm (firstFaceSetTriangles sm) := rfl
  have hspec := np_unique_dance_spec R
  have hRlen : R.length = 3 * (firstFaceSetTriangles sm).length := rowsOfTris_length sm _
  have hidxlen : (np_unique_dance R).2.length = R.length := np_unique_dance_idx_length R
  refine ⟨rfl, ?_, ?_⟩
  · -- the emitted face rows reproduce the original face rows
    show outFaceRows (splitFinish defs (k, R, none)) = origFaceRows sm
    unfold outFaceRows splitFinish
    dsimp only
    rw [headD_replicate_max]
    unfold chunk3
    rw [hidxlen, hRlen, Nat.mul_div_cancel_left _ (by norm_num : 0 < 3), List.map_map]
    unfold origFaceRows
    refine List.ext_getElem (by rw [List.length_map, List.length_range, List.length_map]) ?_
    intro i h1 h2
    have hi : i < (firstFaceSetTriangles sm).length := by
      rw [List.length_map] at h2
      exact h2
    have h3i : 3 * i < R.length := by omega
    have h3i1 : 3 * i + 1 < R.length := by omega
    have h3i2 : 3 * i + 2 < R.length := by omega
    obtain ⟨hs0, hs1, hs2⟩ := rowsOfTris_getD sm (firstFaceSetTriangles sm) i hi
    rw [← hR] at hs0 hs1 hs2
    have hd0 := (hspec.2 (3 * i) h3i).2
    have hd1 := (hspec.2 (3 * i + 1) h3i1).2
    have hd2 := (hspec.2 (3 * i + 2) h3i2).2
    rw [List.getElem_map, List.getElem_range, List.getElem_map]
    simp only [Function.comp_apply]
    rw [hd0, hd1, hd2, hs0, hs1, hs2, List.getD_eq_getElem (firstFaceSetTriangles sm) default hi]
  · -- every referenced original vertex appears in the emitted vertex table
    intro t ht
    have hvert : (splitFinish defs (k, R, none)).vertices = firstUnique R := hspec.1
    rw [hvert]
    refine ⟨(mem_firstUnique R _).2 ?_, (mem_firstUnique R _).2 ?_, (mem_firstUnique R _).2 ?_⟩
    all_goals
      rw [hR]
      exact List.mem_flatMap.2 ⟨t, ht, by simp⟩

/-- **C1 counterexample**: merging `rtFlver` (one submesh with four vertices,
of which vertex 3 at position `(9,9,9)` is referenced by no triangle of the
first face set) and immediately resplitting with a matching definition
succeeds, but no vertex row of any emitted submesh carries the unreferenced
vertex's data — the round trip does not reproduce the original submesh's
vertex table. -/
theorem claimC1_counterexample :
    from_flver rtFlver (fun _ => 0) none = .ok rtMesh ∧
    rtSplit = .ok rtOuts ∧
    rtOuts.length = 1 ∧
    ((rtFlver.submeshes.getD 0 default).vertices.getD 3 default).position = some (9, 9, 9) ∧
    ∀ o ∈ rtOuts, ∀ r ∈ o.vertices, r.vertex.position ≠ (9, 9, 9) :=
  ⟨rfl, rfl, by decide, by decide, by decide⟩

/-- **C1 witness**: the amended theorem applied at the counterexample's FLVER
with the unreferenced vertex removed, all hypotheses discharged concretely. -/
theorem claimC1_witness :
    ∃ mm outs, from_flver rtFlver2 (fun _ => 0) none = .ok mm ∧
      split_mesh mm rtDefs false 38 false = .ok outs ∧
      outs.length = rtFlver2.submeshes.length ∧
      ∀ k, k < rtFlver2.submeshes.length →
        (outs.getD k default).material = k ∧
        outFaceRows (outs.getD k default) = origFaceRows (rtFlver2.submeshes.getD k default) ∧
        ∀ t ∈ firstFaceSetTriangles (rtFlver2.submeshes.getD k default),
          stackedRowOf (rtFlver2.submeshes.getD k default) t.1 ∈ (outs.getD k default).vertices ∧
          stackedRowOf (rtFlver2.submeshes.getD k default) t.2.1 ∈ (outs.getD k default).vertices ∧
          stackedRowOf (rtFlver2.submeshes.getD k default) t.2.2 ∈ (outs.getD k default).vertices :=
  claimC1_amended_round_trip rtFlver2 (fun _ => 0) rtDefs 38 (by decide) (by decide)
    (by decide) (by decide) (by decide)

end Soulstruct
